import Mathlib

/-!
Shallow embedding of the Raster image-to-SVG converter
(`backend/app/vectorizer.py`, `backend/app/tasks.py`, `backend/app/cache.py`)
together with proofs of the specification claims.

Conventions:
* a `numpy` 2-D `uint8` array is modelled as `Img`: explicit height/width and
  a pixel function (`pix y x`, row-major as in `image_array[y, x]`);
* Python strings are Lean `String`s; byte strings are `List Nat`;
* machine floats appear only in the diagnostic processing-time annotation,
  which is modelled by its two printed decimal components.
-/

namespace Raster

/-- A 2-D pixel grid: `numpy` array of shape `(height, width)`,
`pix y x` is `image_array[y, x]`. -/
structure Img where
  height : Nat
  width : Nat
  pix : Nat → Nat → Nat

/-- One emitted `<rect .../>` element, the record of its five attributes. -/
structure Rect where
  x : Nat
  y : Nat
  width : Nat
  height : Nat
  fill : String
deriving DecidableEq, Repr

/-- Row `y` of the image as a list of intensities (`image_array[y, :]`). -/
def rowOf (img : Img) (y : Nat) : List Nat :=
  (List.range img.width).map (img.pix y)

/-- `image_array < threshold` applied to one row (threshold 128):
`binary[y, x]` of `_generate_binary_paths`. -/
def darkRow (row : List Nat) : List Bool :=
  row.map (fun v => decide (v < 128))

/-- Length of the leading run of `true`s: how far the inner
`while x < width and binary[y, x]` loop advances. -/
def takeRun : List Bool → Nat
  | true :: rest => takeRun rest + 1
  | _ => 0

/-- Single left-to-right scan collecting maximal runs of `true`: the
`while x < width` loop of `_generate_binary_paths` with cursor `i` and the
run currently being extended (its `x_start` and length) as state. The
`visited` marks of the source are inert: they are only ever set left of
the cursor. Each finished run is `(x_start, x_end - x_start)`. -/
def runsAux : List Bool → Nat → Option (Nat × Nat) → List (Nat × Nat)
  | [], _, none => []
  | [], _, some r => [r]
  | false :: rest, i, none => runsAux rest (i + 1) none
  | false :: rest, i, some r => r :: runsAux rest (i + 1) none
  | true :: rest, i, none => runsAux rest (i + 1) (some (i, 1))
  | true :: rest, i, some (s, n) => runsAux rest (i + 1) (some (s, n + 1))

/-- The runs of `true` in `l`, offset by `i`: run-at-a-time recursion
equation, used for reasoning (`runsAux_none_eq` links the two). -/
def runsSpec : List Bool → Nat → List (Nat × Nat)
  | [], _ => []
  | false :: rest, i => runsSpec rest (i + 1)
  | true :: rest, i =>
      (i, takeRun rest + 1) :: runsSpec (rest.drop (takeRun rest)) (i + takeRun rest + 1)
termination_by l _ => l.length
decreasing_by
  · simp
  · simp only [List.length_cons, List.length_drop]
    omega

/-- Runs of dark pixels in one image row. -/
def rowRuns (row : List Nat) : List (Nat × Nat) :=
  runsAux (darkRow row) 0 none

/-- The rectangles emitted for one dark run `(x_start, len)` of row `y`
by `_generate_binary_paths`: one wide rectangle when `simplify` and the
run is longer than 1, else unit rectangles. -/
def runRects (y : Nat) (simplify : Bool) (r : Nat × Nat) : List Rect :=
  if simplify ∧ r.2 > 1 then
    [⟨r.1, y, r.2, 1, "black"⟩]
  else
    (List.range r.2).map (fun j => ⟨r.1 + j, y, 1, 1, "black"⟩)

/-- `SVGVectorizer._generate_binary_paths`, as the list of emitted
rectangles in emission order. -/
def generate_binary_paths (img : Img) (simplify : Bool) : List Rect :=
  (List.range img.height).flatMap
    (fun y => (rowRuns (rowOf img y)).flatMap (runRects y simplify))

/-- Decimal digit character. -/
def digitChar (d : Nat) : Char := Char.ofNat (48 + d)

/-- Decimal digits, most significant first; `fuel` bounds the recursion
depth (any `fuel ≥ ` digit count gives the digits, see `natChars`). -/
def natCharsAux : Nat → Nat → List Char
  | 0, _ => []
  | fuel + 1, n =>
      if n < 10 then [digitChar n]
      else natCharsAux fuel (n / 10) ++ [digitChar (n % 10)]

/-- Decimal digits of `n`, most significant first. -/
def natChars (n : Nat) : List Char :=
  natCharsAux (n + 1) n

/-- Decimal rendering of a natural number (Python `str`/f-string `{n}`). -/
def natStr (n : Nat) : String := ⟨natChars n⟩

/-- `f'rgb({g},{g},{g})'` fill of `_generate_grayscale_paths`. -/
def rgbFill (g : Nat) : String :=
  "rgb(" ++ natStr g ++ "," ++ natStr g ++ "," ++ natStr g ++ ")"

/-- Python `range(0, n, step)` for `step > 0`. -/
def rangeStep (n step : Nat) : List Nat :=
  (List.range ((n + step - 1) / step)).map (· * step)

/-- `SVGVectorizer._generate_grayscale_paths`: stride-2 sub-sampling when
`simplify`, stride 1 otherwise; one `step × step` rectangle per sampled
pixel, filled with that pixel's exact intensity. -/
def generate_grayscale_paths (img : Img) (simplify : Bool) : List Rect :=
  let step := if simplify then 2 else 1
  (rangeStep img.height step).flatMap (fun y =>
    (rangeStep img.width step).map (fun x =>
      ⟨x, y, step, step, rgbFill (img.pix y x)⟩))

/-- Rectangles emitted for one dark run by the streaming per-chunk encoder
`_generate_paths_for_chunk`: note there is no unit-rectangle fallback. -/
def chunkRunRects (actualY : Nat) (simplify : Bool) (r : Nat × Nat) : List Rect :=
  if simplify ∧ r.2 > 1 then
    [⟨r.1, actualY, r.2, 1, "black"⟩]
  else []

/-- `SVGVectorizer._generate_paths_for_chunk` on the band
`image_array[yStart:yEnd]` (`y_offset = yStart`); `color_mode` is a
parameter of the source function but is never consulted. -/
def generate_paths_for_chunk (img : Img) (yStart yEnd : Nat)
    (colorMode : String) (simplify : Bool) : List Rect :=
  (List.range (yEnd - yStart)).flatMap (fun dy =>
    (rowRuns (rowOf img (yStart + dy))).flatMap (chunkRunRects (yStart + dy) simplify))

/-- The `<rect .../>` string built by the f-strings of the vectorizer. -/
def rectStr (r : Rect) : String :=
  "<rect x=\"" ++ natStr r.x ++ "\" y=\"" ++ natStr r.y ++
  "\" width=\"" ++ natStr r.width ++ "\" height=\"" ++ natStr r.height ++
  "\" fill=\"" ++ r.fill ++ "\"/>"

/-- The root opening tag shared by `_create_svg_from_array` and
`vectorize_streaming`. -/
def svgHeader (w h : Nat) : String :=
  "<svg xmlns=\"http://www.w3.org/2000/svg\" width=\"" ++ natStr w ++
  "\" height=\"" ++ natStr h ++ "\" viewBox=\"0 0 " ++ natStr w ++ " " ++
  natStr h ++ "\">"

/-- The path list chosen by `_create_svg_from_array`: binary paths when
`color_mode == 'binary'`, else grayscale paths. -/
def pathsOf (img : Img) (colorMode : String) (simplify : Bool) : List Rect :=
  if colorMode == "binary" then generate_binary_paths img simplify
  else generate_grayscale_paths img simplify

/-- `SVGVectorizer._create_svg_from_array`. -/
def create_svg_from_array (img : Img) (colorMode : String) (simplify : Bool) : String :=
  String.intercalate "\n"
    (svgHeader img.width img.height ::
      ((pathsOf img colorMode simplify).map rectStr ++ ["</svg>"]))

/-- `startsWithChars pat s`: `pat` is a prefix of `s` (character lists). -/
def startsWithChars : List Char → List Char → Bool
  | [], _ => true
  | _ :: _, [] => false
  | p :: ps, c :: cs => p == c && startsWithChars ps cs

/-- Python `s.replace(old, new, 1)` on character lists. -/
def replFirst : List Char → List Char → List Char → List Char
  | [], _, _ => []
  | c :: rest, pat, new =>
      if startsWithChars pat (c :: rest) then new ++ (c :: rest).drop pat.length
      else c :: replFirst rest pat new

/-- Python `s.replace(old, new, 1)`. -/
def replaceFirst (s pat new : String) : String :=
  ⟨replFirst s.data pat.data new.data⟩

/-- The printed processing-time value `f'{processing_time:.2f}'` with
integer part `tInt` and two-digit fractional part `tFrac < 100`. -/
def timeStr (tInt tFrac : Nat) : String :=
  natStr tInt ++ "." ++ (if tFrac < 10 then "0" else "") ++ natStr tFrac

/-- `SVGVectorizer.vectorize`: the whole document plus the
`data-processing-time` attribute spliced into the root opening tag by
`svg_data.replace('<svg', f'<svg data-processing-time="{t:.2f}ms"', 1)`.
The elapsed wall-clock time is the model parameters `tInt`, `tFrac`. -/
def vectorize (img : Img) (colorMode : String) (simplify : Bool)
    (tInt tFrac : Nat) : String :=
  replaceFirst (create_svg_from_array img colorMode simplify) "<svg"
    ("<svg data-processing-time=\"" ++ timeStr tInt tFrac ++ "ms\"")

/-- All rectangles yielded across the bands of `vectorize_streaming`:
`chunk_height = max(1, height // 10)`, bands `[y_start, min(y_start +
chunk_height, height))` for `y_start in range(0, height, chunk_height)`. -/
def streamRects (img : Img) (colorMode : String) (simplify : Bool) : List Rect :=
  let chunkH := max 1 (img.height / 10)
  (rangeStep img.height chunkH).flatMap (fun yStart =>
    generate_paths_for_chunk img yStart (min (yStart + chunkH) img.height)
      colorMode simplify)

/-- `SVGVectorizer.vectorize_streaming`, as the (finite) list of yielded
string fragments: the root opening tag, one fragment per band rectangle
(each `path + '\n'`), and the closing tag. -/
def vectorize_streaming (img : Img) (colorMode : String) (simplify : Bool) :
    List String :=
  (svgHeader img.width img.height ++ "\n") ::
    (streamRects img colorMode simplify).map (fun r => rectStr r ++ "\n")
    ++ ["</svg>"]

/-! ## Background task manager (`backend/app/tasks.py`) -/

/-- The `status` string of a task record. -/
inductive JStatus where
  | pending
  | processing
  | completed
  | failed
deriving DecidableEq, Repr

/-- One status dictionary as stored in `pending_tasks` / `completed_tasks`
and returned by `get_task_status`; `none` models an absent key. The
`metadata` value is tracked only by presence. -/
structure TaskRecord where
  status : JStatus
  progress : Option Nat
  result : Option String
  error : Option String
  fromCache : Option Bool
  hasMetadata : Bool
  completedAt : Option Nat
deriving DecidableEq, Repr

/-- The record registered by `submit_vectorization_task`. -/
def pendingRec : TaskRecord :=
  ⟨.pending, some 0, none, none, none, false, none⟩

/-- An in-flight record `{'status': 'processing', 'progress': p}`. -/
def processingRec (p : Nat) : TaskRecord :=
  ⟨.processing, some p, none, none, none, false, none⟩

/-- The terminal record written by `_process_task` on success: note it
carries no `progress` and no `completed_at` key; `metadata` is present
only on the non-cached path. -/
def completedRec (res : String) (fromCache : Bool) : TaskRecord :=
  ⟨.completed, none, some res, none, some fromCache, !fromCache, none⟩

/-- The terminal record written by the `except` clause of `_process_task`. -/
def failedRec (e : String) : TaskRecord :=
  ⟨.failed, none, none, some e, none, false, none⟩

/-- Environment of one `_process_task` run: the outcome of the awaited
cache lookup (already error-contained, so an `Option`), of
`preprocessor.preprocess` and of `vectorizer.vectorize` (which may raise). -/
structure TaskEnv where
  cached : Option String
  preprocessRes : Except String Unit
  vectorizeRes : Except String String

/-- The sequence of records observable through `get_task_status`, one per
scheduling point of `_process_task` (task creation, each `await`, and
termination); between two `await`s the coroutine runs atomically, so the
paired `status`/`progress` assignments are observed together. -/
def processTrace (env : TaskEnv) : List TaskRecord :=
  pendingRec :: processingRec 10 ::
    match env.cached with
    | some res => [completedRec res true]
    | none =>
      processingRec 30 ::
        match env.preprocessRes with
        | .error e => [failedRec e]
        | .ok _ =>
          processingRec 60 ::
            match env.vectorizeRes with
            | .error e => [failedRec e]
            | .ok svg => [processingRec 90, completedRec svg false]

/-- Whether the preprocessing stage runs in environment `env`
(`preprocessor.preprocess` is only reached on a cache miss). -/
def preprocessRan (env : TaskEnv) : Bool :=
  env.cached.isNone

/-- Whether the vectorization stage runs in environment `env`. -/
def vectorizeRan (env : TaskEnv) : Bool :=
  env.cached.isNone && env.preprocessRes.toOption.isSome

/-- Ordering rank of statuses along the lifecycle. -/
def statusRank : JStatus → Nat
  | .pending => 0
  | .processing => 1
  | .completed => 2
  | .failed => 2

/-- `BackgroundTaskManager.cleanup_completed_tasks`: keep a record unless
it has a `completed_at` key whose age exceeds `maxAge`. -/
def cleanup_completed_tasks (completed : List (String × TaskRecord))
    (now maxAge : Nat) : List (String × TaskRecord) :=
  completed.filter (fun e =>
    match e.2.completedAt with
    | some t => !decide (now - t > maxAge)
    | none => true)

/-! ## Cache layer (`backend/app/cache.py`) -/

/-- The Redis backing store: a key-value map plus a flag making every
operation raise (connection failure, timeout, protocol error). -/
structure Backend where
  store : List (String × (Nat × List Nat))
  failing : Bool

/-- Association-list lookup (first binding wins). -/
def lookupKey {α : Type} (k : String) : List (String × α) → Option α
  | [] => none
  | p :: rest => if p.1 = k then some p.2 else lookupKey k rest

/-- `redis.get`: raises iff the backend is failing. -/
def redisGet (b : Backend) (k : String) : Except String (Option (List Nat)) :=
  if b.failing then .error "connection error" else .ok ((lookupKey k b.store).map (·.2))

/-- `redis.setex`: raises iff the backend is failing. -/
def redisSetex (b : Backend) (k : String) (ttl : Nat) (v : List Nat) :
    Except String Backend :=
  if b.failing then .error "connection error"
  else .ok { b with store := (k, ttl, v) :: b.store }

/-- `redis.exists`: raises iff the backend is failing. -/
def redisExists (b : Backend) (k : String) : Except String Bool :=
  if b.failing then .error "connection error" else .ok (lookupKey k b.store).isSome

/-- `CacheManager` state: `enabled` flag and whether `redis_client` is set. -/
structure CacheMgr where
  enabled : Bool
  connected : Bool
  ttl : Nat

/-- `CacheManager.get`: disabled/unconnected or any backend error gives a
miss (`none`); its return type shows no error escapes. -/
def CacheMgr.get (m : CacheMgr) (b : Backend) (k : String) : Option (List Nat) :=
  if !m.enabled || !m.connected then none
  else
    match redisGet b k with
    | .error _ => none
    | .ok d => d

/-- `CacheManager.set`: returns the (possibly unchanged) backing store;
disabled/unconnected or any backend error is a no-op. -/
def CacheMgr.set (m : CacheMgr) (b : Backend) (k : String) (v : List Nat)
    (ttlArg : Option Nat) : Backend :=
  if !m.enabled || !m.connected then b
  else
    match redisSetex b k (ttlArg.getD m.ttl) v with
    | .error _ => b
    | .ok b2 => b2

/-- `CacheManager.exists`: disabled/unconnected or any backend error
yields `false`. -/
def CacheMgr.exists (m : CacheMgr) (b : Backend) (k : String) : Bool :=
  if !m.enabled || !m.connected then false
  else
    match redisExists b k with
    | .error _ => false
    | .ok r => r

/-! ## Cache key (`CacheManager.generate_cache_key`) -/

/-- JSON values occurring in the request parameter dictionary. -/
inductive JValue where
  | jNull
  | jBool (b : Bool)
  | jNum (n : Int)
  | jStr (s : String)
deriving DecidableEq, Repr

/-- Decimal rendering of an integer. -/
def intStr (n : Int) : String :=
  if n < 0 then "-" ++ natStr n.natAbs else natStr n.natAbs

/-- `json.dumps` rendering of one value. -/
def jvalStr : JValue → String
  | .jNull => "null"
  | .jBool true => "true"
  | .jBool false => "false"
  | .jNum n => intStr n
  | .jStr s => "\"" ++ s ++ "\""

/-- The parameter dictionary items sorted by key:
`json.dumps(params, sort_keys=True)` serializes in this order. -/
def sortParams (ps : List (String × JValue)) : List (String × JValue) :=
  ps.mergeSort (fun a b => a.1 ≤ b.1)

/-- `json.dumps(params, sort_keys=True)` (default separators `', '`, `': '`;
the braces are the characters `U+007B`/`U+007D`). -/
def jsonDumpsSorted (ps : List (String × JValue)) : String :=
  "\x7b" ++ String.intercalate ", "
    ((sortParams ps).map (fun p => "\"" ++ p.1 ++ "\": " ++ jvalStr p.2)) ++ "\x7d"

/-- UTF-8-agnostic byte view of a serialized string (code points suffice
for the determinism/canonicalization property). -/
def strBytes (s : String) : List Nat :=
  s.data.map Char.toNat

/-- `CacheManager.generate_cache_key`. The `xxhash.xxh64` digest is an
external library: it is modelled as an arbitrary pure function `hash` of
the hashed byte sequence (`hasher.update` concatenates), so every theorem
below holds for the real digest in particular. -/
def generate_cache_key (hash : List Nat → String) (imageData : List Nat)
    (params : List (String × JValue)) : String :=
  "svg:" ++ hash (imageData ++ strBytes (jsonDumpsSorted params))

/-! ## A well-formed-XML grammar for the produced documents -/

/-- A childless XML element `<name attrs/>`. -/
structure XmlLeaf where
  name : String
  attrs : List (String × String)

/-- A root XML element with self-closed children, one per line: exactly the
shape of the produced SVG documents. -/
structure XmlDoc where
  name : String
  attrs : List (String × String)
  children : List XmlLeaf

/-- Attribute list rendering ` k="v" k2="v2" …`. -/
def attrsStr (attrs : List (String × String)) : String :=
  String.join (attrs.map (fun a => " " ++ a.1 ++ "=\"" ++ a.2 ++ "\""))

/-- Rendering of a self-closed element. -/
def leafRender (l : XmlLeaf) : String :=
  "<" ++ l.name ++ attrsStr l.attrs ++ "/>"

/-- Rendering of the document: open tag, children each on its own line,
close tag. -/
def docRender (d : XmlDoc) : String :=
  "<" ++ d.name ++ attrsStr d.attrs ++ ">" ++ "\n" ++
    String.join (d.children.map (fun c => leafRender c ++ "\n")) ++
    "</" ++ d.name ++ ">"

/-- Characters allowed in an XML name. -/
def nameChar (c : Char) : Bool :=
  c.isAlphanum || c == '-' || c == ':'

/-- Characters allowed in a double-quoted attribute value. -/
def cleanChar (c : Char) : Bool :=
  !(c == '<' || c == '"' || c == '&')

/-- A syntactically legal attribute. -/
def attrOk (a : String × String) : Bool :=
  a.1.length > 0 && a.1.data.all nameChar && a.2.data.all cleanChar

/-- A syntactically legal self-closed element: legal name, legal attributes
with pairwise distinct names. -/
def leafOk (l : XmlLeaf) : Bool :=
  l.name.length > 0 && l.name.data.all nameChar && l.attrs.all attrOk &&
    decide (l.attrs.map Prod.fst).Nodup

/-- A syntactically legal document. -/
def docOk (d : XmlDoc) : Bool :=
  d.name.length > 0 && d.name.data.all nameChar && d.attrs.all attrOk &&
    decide (d.attrs.map Prod.fst).Nodup && d.children.all leafOk

/-- `s` is well-formed XML: it is derived from the (sub-)grammar of legal
single-root documents with self-closed children. -/
def wellFormedXml (s : String) : Prop :=
  ∃ d : XmlDoc, docOk d = true ∧ docRender d = s

/-- The four root attributes required by the SVG output contract. -/
def stdAttrs (w h : Nat) : List (String × String) :=
  [("xmlns", "http://www.w3.org/2000/svg"),
   ("width", natStr w),
   ("height", natStr h),
   ("viewBox", "0 0 " ++ natStr w ++ " " ++ natStr h)]

/-- The element tree of one emitted `<rect .../>`. -/
def rectLeaf (r : Rect) : XmlLeaf :=
  ⟨"rect", [("x", natStr r.x), ("y", natStr r.y), ("width", natStr r.width),
    ("height", natStr r.height), ("fill", r.fill)]⟩

/-! ## Derived notions used to state the claims -/

/-- `l` at index `n`, `false` beyond the end. -/
def nthD (l : List Bool) (n : Nat) : Bool :=
  l.getD n false

/-- Rectangle `r` covers the pixel `(x, y)`. -/
def coversB (r : Rect) (x y : Nat) : Bool :=
  decide (r.x ≤ x) && decide (x < r.x + r.width) &&
  decide (r.y ≤ y) && decide (y < r.y + r.height)

/-- Run `(x_start, len)` covers column `x`. -/
def coversRunB (x : Nat) (r : Nat × Nat) : Bool :=
  decide (r.1 ≤ x) && decide (x < r.1 + r.2)

/-- Pixel `(x, y)` is inside row `y` of the grid and dark (below 128). -/
def darkAtB (img : Img) (y x : Nat) : Bool :=
  decide (x < img.width) && decide (img.pix y x < 128)

/-- `(s, n)` is a maximal run of dark pixels in row `y`: nonempty, all
dark, delimited on the left by the row edge or a light pixel, on the right
by a light pixel or the row edge (`darkAtB` is `false` off-grid). -/
def IsMaxRun (img : Img) (y s n : Nat) : Prop :=
  0 < n ∧ (∀ j < n, darkAtB img y (s + j) = true) ∧
    (s = 0 ∨ darkAtB img y (s - 1) = false) ∧ darkAtB img y (s + n) = false

instance (img : Img) (y s n : Nat) : Decidable (IsMaxRun img y s n) := by
  unfold IsMaxRun
  infer_instance

/-- Scenario grid: 100×100 white image with a black 60×60 square at
(20,20)–(80,80). -/
def sq100 : Img :=
  ⟨100, 100, fun y x => if 20 ≤ x ∧ x < 80 ∧ 20 ≤ y ∧ y < 80 then 0 else 255⟩

/-- Scenario grid: 50×50 white image with a black 30×30 square at (10,10). -/
def gray50 : Img :=
  ⟨50, 50, fun y x => if 10 ≤ x ∧ x < 40 ∧ 10 ≤ y ∧ y < 40 then 0 else 255⟩

/-- A concrete `_process_task` environment: cache hit. -/
def envHit : TaskEnv :=
  ⟨some "<svg/>", .ok (), .ok "<svg/>"⟩

/-- 3×3 white grid with a single dark pixel at (1,1). -/
def imgDot : Img :=
  ⟨3, 3, fun y x => if x = 1 ∧ y = 1 then 0 else 255⟩

/-! ## Lemmas: indexing and runs -/

theorem nthD_nil (n : Nat) : nthD [] n = false := by
  simp [nthD]

theorem nthD_cons_zero (b : Bool) (l : List Bool) : nthD (b :: l) 0 = b := rfl

theorem nthD_cons_succ (b : Bool) (l : List Bool) (n : Nat) :
    nthD (b :: l) (n + 1) = nthD l n := rfl

theorem nthD_drop (l : List Bool) (k j : Nat) :
    nthD (l.drop k) j = nthD l (k + j) := by
  induction l generalizing k j with
  | nil => simp [nthD]
  | cons b t ih =>
      cases k with
      | zero => simp
      | succ k =>
          rw [List.drop_succ_cons, ih]
          have : k + 1 + j = (k + j) + 1 := by omega
          rw [this, nthD_cons_succ]

theorem nthD_lt_takeRun (l : List Bool) (j : Nat) (h : j < takeRun l) :
    nthD l j = true := by
  induction l generalizing j with
  | nil => simp [takeRun] at h
  | cons b t ih =>
      cases b with
      | false => simp [takeRun] at h
      | true =>
          cases j with
          | zero => rfl
          | succ j =>
              rw [nthD_cons_succ]
              exact ih j (by simp [takeRun] at h; omega)

theorem nthD_takeRun (l : List Bool) : nthD l (takeRun l) = false := by
  induction l with
  | nil => simp [nthD, takeRun]
  | cons b t ih =>
      cases b with
      | false => simp [takeRun, nthD_cons_zero]
      | true => rw [show takeRun (true :: t) = takeRun t + 1 from rfl, nthD_cons_succ]; exact ih

theorem runsSpec_nil (i : Nat) : runsSpec [] i = [] := by
  rw [runsSpec.eq_def]

theorem runsSpec_false (t : List Bool) (i : Nat) :
    runsSpec (false :: t) i = runsSpec t (i + 1) := by
  rw [runsSpec.eq_def]

theorem runsSpec_true (t : List Bool) (i : Nat) :
    runsSpec (true :: t) i =
      (i, takeRun t + 1) :: runsSpec (t.drop (takeRun t)) (i + takeRun t + 1) := by
  rw [runsSpec.eq_def]

theorem runsAux_eq (l : List Bool) : ∀ i : Nat,
    runsAux l i none = runsSpec l i ∧
      ∀ s n, runsAux l i (some (s, n)) =
        (s, n + takeRun l) :: runsSpec (l.drop (takeRun l)) (i + takeRun l) := by
  induction l with
  | nil =>
      intro i
      constructor
      · rw [runsSpec_nil]; rfl
      · intro s n
        rw [show runsAux [] i (some (s, n)) = [(s, n)] from rfl]
        simp [takeRun, runsSpec_nil]
  | cons b t ih =>
      intro i
      cases b with
      | false =>
          constructor
          · rw [show runsAux (false :: t) i none = runsAux t (i + 1) none from rfl,
              (ih (i + 1)).1, runsSpec_false]
          · intro s n
            rw [show runsAux (false :: t) i (some (s, n)) =
                (s, n) :: runsAux t (i + 1) none from rfl, (ih (i + 1)).1]
            rw [show takeRun (false :: t) = 0 from rfl]
            simp [runsSpec_false]
      | true =>
          constructor
          · rw [show runsAux (true :: t) i none = runsAux t (i + 1) (some (i, 1)) from rfl,
              ((ih (i + 1)).2 i 1), runsSpec_true]
            have h1 : 1 + takeRun t = takeRun t + 1 := by omega
            have h2 : i + 1 + takeRun t = i + takeRun t + 1 := by omega
            rw [h1, h2]
          · intro s n
            rw [show runsAux (true :: t) i (some (s, n)) =
                runsAux t (i + 1) (some (s, n + 1)) from rfl, ((ih (i + 1)).2 s (n + 1))]
            rw [show takeRun (true :: t) = takeRun t + 1 from rfl]
            have h1 : n + 1 + takeRun t = n + (takeRun t + 1) := by omega
            have h2 : i + 1 + takeRun t = i + (takeRun t + 1) := by omega
            have h3 : (true :: t).drop (takeRun t + 1) = t.drop (takeRun t) :=
              List.drop_succ_cons
            rw [h1, h2, h3]

theorem runsAux_none_eq (l : List Bool) (i : Nat) :
    runsAux l i none = runsSpec l i :=
  (runsAux_eq l i).1

theorem runsSpec_countP (l : List Bool) (i : Nat) (x : Nat) :
    (runsSpec l i).countP (coversRunB x) =
      if i ≤ x ∧ nthD l (x - i) = true then 1 else 0 := by
  induction l, i using runsSpec.induct with
  | case1 i =>
      rw [runsSpec_nil]
      simp [nthD]
  | case2 rest i ih =>
      rw [runsSpec_false, ih]
      rcases Nat.lt_or_ge x (i + 1) with hx | hx
      · rcases Nat.lt_or_ge x i with hx2 | hx2
        · rw [if_neg (fun h => by omega), if_neg (fun h => absurd h.1 (by omega))]
        · have hxi : x = i := by omega
          subst hxi
          rw [if_neg (fun h => by omega), if_neg (fun h => by
            have h2 := h.2
            rw [Nat.sub_self, nthD_cons_zero] at h2
            exact Bool.false_ne_true h2)]
      · have h1 : x - i = (x - (i + 1)) + 1 := by omega
        by_cases hb : nthD rest (x - (i + 1)) = true
        · rw [if_pos ⟨by omega, hb⟩, if_pos ⟨by omega, by rw [h1, nthD_cons_succ]; exact hb⟩]
        · rw [if_neg (fun h => hb h.2), if_neg (fun h => by
            have h2 := h.2
            rw [h1, nthD_cons_succ] at h2
            exact hb h2)]
  | case3 rest i ih =>
      rw [runsSpec_true, List.countP_cons, ih]
      rcases Nat.lt_or_ge x i with hx | hx
      · rw [if_neg (fun h => by omega),
          if_neg (show ¬coversRunB x (i, takeRun rest + 1) = true by
            simp [coversRunB]; omega),
          if_neg (fun h => absurd h.1 (by omega))]
      · rcases Nat.lt_or_ge x (i + takeRun rest + 1) with hx2 | hx2
        · rw [if_neg (fun h => by omega),
            if_pos (show coversRunB x (i, takeRun rest + 1) = true by
              simp [coversRunB]; omega),
            if_pos (show i ≤ x ∧ nthD (true :: rest) (x - i) = true from ⟨hx, by
              rcases Nat.eq_or_lt_of_le hx with hxi | hxi
              · rw [← hxi, Nat.sub_self, nthD_cons_zero]
              · have h1 : x - i = (x - i - 1) + 1 := by omega
                rw [h1, nthD_cons_succ]
                exact nthD_lt_takeRun rest (x - i - 1) (by omega)⟩)]
        · have hd : nthD (rest.drop (takeRun rest)) (x - (i + takeRun rest + 1)) =
              nthD rest (x - i - 1) := by
            rw [nthD_drop]
            congr 1
            omega
          have h1 : x - i = (x - i - 1) + 1 := by omega
          rw [if_neg (show ¬coversRunB x (i, takeRun rest + 1) = true by
            simp [coversRunB]; omega)]
          by_cases hb : nthD rest (x - i - 1) = true
          · rw [if_pos ⟨by omega, hd.trans hb⟩, if_pos ⟨hx, by rw [h1, nthD_cons_succ]; exact hb⟩]
          · rw [if_neg (fun h => hb (hd.symm.trans h.2)), if_neg (fun h => by
              have h2 := h.2
              rw [h1, nthD_cons_succ] at h2
              exact hb h2)]

theorem runsSpec_mem (l : List Bool) (i : Nat) : ∀ s n : Nat,
    (s, n) ∈ runsSpec l i ↔
      (i ≤ s ∧ 0 < n ∧ (∀ j < n, nthD l (s - i + j) = true) ∧
        (s = i ∨ nthD l (s - i - 1) = false) ∧ nthD l (s - i + n) = false) := by
  induction l, i using runsSpec.induct with
  | case1 i =>
      intro s n
      rw [runsSpec_nil]
      simp only [List.not_mem_nil, false_iff]
      rintro ⟨_, hn, hall, _, _⟩
      have h0 := hall 0 hn
      rw [nthD_nil] at h0
      exact Bool.false_ne_true h0
  | case2 rest i ih =>
      intro s n
      rw [runsSpec_false, ih]
      constructor
      · rintro ⟨his, hn, hall, hb, he⟩
        refine ⟨by omega, hn, ?_, ?_, ?_⟩
        · intro j hj
          rw [show s - i + j = (s - (i + 1) + j) + 1 from by omega, nthD_cons_succ]
          exact hall j hj
        · rcases Nat.eq_or_lt_of_le his with h1 | h1
          · right
            rw [show s - i - 1 = 0 from by omega, nthD_cons_zero]
          · right
            rw [show s - i - 1 = (s - (i + 1) - 1) + 1 from by omega, nthD_cons_succ]
            rcases hb with hb | hb
            · exact absurd hb.symm (by omega)
            · exact hb
        · rw [show s - i + n = (s - (i + 1) + n) + 1 from by omega, nthD_cons_succ]
          exact he
      · rintro ⟨his, hn, hall, hb, he⟩
        have hsi : s ≠ i := by
          intro hsi
          have h0 := hall 0 hn
          rw [hsi, Nat.sub_self, Nat.add_zero, nthD_cons_zero] at h0
          exact Bool.false_ne_true h0
        refine ⟨by omega, hn, ?_, ?_, ?_⟩
        · intro j hj
          have h0 := hall j hj
          rw [show s - i + j = (s - (i + 1) + j) + 1 from by omega, nthD_cons_succ] at h0
          exact h0
        · rcases Nat.eq_or_lt_of_le (show i + 1 ≤ s by omega) with h1 | h1
          · exact Or.inl h1.symm
          · right
            rcases hb with hb | hb
            · exact absurd hb hsi
            · rw [show s - i - 1 = (s - (i + 1) - 1) + 1 from by omega, nthD_cons_succ] at hb
              exact hb
        · have h0 := he
          rw [show s - i + n = (s - (i + 1) + n) + 1 from by omega, nthD_cons_succ] at h0
          exact h0
  | case3 rest i ih =>
      intro s n
      rw [runsSpec_true, List.mem_cons]
      constructor
      · rintro (heq | hmem)
        · rw [Prod.mk.injEq] at heq
          obtain ⟨hs, hn'⟩ := heq
          subst hs
          subst hn'
          refine ⟨Nat.le_refl s, by omega, ?_, Or.inl rfl, ?_⟩
          · intro j hj
            rw [Nat.sub_self, Nat.zero_add]
            cases j with
            | zero => rw [nthD_cons_zero]
            | succ j =>
                rw [nthD_cons_succ]
                exact nthD_lt_takeRun rest j (by omega)
          · rw [Nat.sub_self, Nat.zero_add, nthD_cons_succ]
            exact nthD_takeRun rest
        · obtain ⟨his, hn, hall, hb, he⟩ := (ih s n).mp hmem
          have hs2 : i + takeRun rest + 2 ≤ s := by
            rcases Nat.eq_or_lt_of_le his with h1 | h1
            · exfalso
              have h0 := hall 0 hn
              rw [nthD_drop, show takeRun rest + (s - (i + takeRun rest + 1) + 0) =
                takeRun rest from by omega, nthD_takeRun] at h0
              exact Bool.false_ne_true h0
            · omega
          refine ⟨by omega, hn, ?_, ?_, ?_⟩
          · intro j hj
            have h0 := hall j hj
            rw [nthD_drop] at h0
            rw [show s - i + j = (takeRun rest + (s - (i + takeRun rest + 1) + j)) + 1
              from by omega, nthD_cons_succ]
            exact h0
          · right
            rcases hb with hb | hb
            · exact absurd hb (by omega)
            · rw [nthD_drop] at hb
              rw [show s - i - 1 = (takeRun rest + (s - (i + takeRun rest + 1) - 1)) + 1
                from by omega, nthD_cons_succ]
              exact hb
          · have h0 := he
            rw [nthD_drop] at h0
            rw [show s - i + n = (takeRun rest + (s - (i + takeRun rest + 1) + n)) + 1
              from by omega, nthD_cons_succ]
            exact h0
      · rintro ⟨his, hn, hall, hb, he⟩
        by_cases hs : s = i
        · left
          subst hs
          have hnk : n = takeRun rest + 1 := by
            by_contra hne
            rcases Nat.lt_or_ge n (takeRun rest + 1) with h1 | h1
            · have h0 := he
              rw [Nat.sub_self, Nat.zero_add,
                show n = (n - 1) + 1 from by omega, nthD_cons_succ] at h0
              have h2 := nthD_lt_takeRun rest (n - 1) (by omega)
              rw [h2] at h0
              simp at h0
            · have h0 := hall (takeRun rest + 1) (by omega)
              rw [Nat.sub_self, Nat.zero_add, nthD_cons_succ, nthD_takeRun] at h0
              exact Bool.false_ne_true h0
          rw [hnk]
        · right
          have hsk : i + takeRun rest + 1 ≤ s := by
            by_contra hlt
            push_neg at hlt
            rcases hb with hb | hb
            · exact hs hb
            · rcases Nat.eq_or_lt_of_le (show i + 1 ≤ s by omega) with h1 | h1
              · rw [show s - i - 1 = 0 from by omega, nthD_cons_zero] at hb
                simp at hb
              · rw [show s - i - 1 = (s - i - 2) + 1 from by omega, nthD_cons_succ] at hb
                have h2 := nthD_lt_takeRun rest (s - i - 2) (by omega)
                rw [h2] at hb
                simp at hb
          have hs2 : i + takeRun rest + 2 ≤ s := by
            rcases Nat.eq_or_lt_of_le hsk with h1 | h1
            · exfalso
              have h0 := hall 0 hn
              rw [show s - i + 0 = takeRun rest + 1 from by omega, nthD_cons_succ,
                nthD_takeRun] at h0
              exact Bool.false_ne_true h0
            · omega
          rw [ih s n]
          refine ⟨by omega, hn, ?_, ?_, ?_⟩
          · intro j hj
            have h0 := hall j hj
            rw [show s - i + j = (takeRun rest + (s - (i + takeRun rest + 1) + j)) + 1
              from by omega, nthD_cons_succ] at h0
            rw [nthD_drop]
            exact h0
          · right
            rcases hb with hb | hb
            · exact absurd hb hs
            · rw [show s - i - 1 = (takeRun rest + (s - (i + takeRun rest + 1) - 1)) + 1
                from by omega, nthD_cons_succ] at hb
              rw [nthD_drop]
              exact hb
          · have h0 := he
            rw [show s - i + n = (takeRun rest + (s - (i + takeRun rest + 1) + n)) + 1
              from by omega, nthD_cons_succ] at h0
            rw [nthD_drop]
            exact h0

theorem rowDark (img : Img) (y x : Nat) :
    nthD (darkRow (rowOf img y)) x = darkAtB img y x := by
  rw [nthD, List.getD_eq_getElem?_getD, darkRow, rowOf, List.getElem?_map, List.getElem?_map]
  by_cases hx : x < img.width
  · rw [List.getElem?_range hx]
    simp [darkAtB, hx]
  · rw [List.getElem?_eq_none (by simpa using hx)]
    simp [darkAtB, hx]

theorem countP_unitRange (n s x : Nat) :
    (List.range n).countP (fun j => decide (s + j ≤ x) && decide (x < s + j + 1)) =
      if s ≤ x ∧ x < s + n then 1 else 0 := by
  induction n with
  | zero =>
      rw [List.range_zero, List.countP_nil, if_neg (fun h => by omega)]
  | succ n ih =>
      rw [List.range_succ, List.countP_append, ih, List.countP_cons, List.countP_nil]
      by_cases h2 : x = s + n
      · rw [if_neg (fun h => by omega),
          if_pos (show (decide (s + n ≤ x) && decide (x < s + n + 1)) = true by
            subst h2; simp),
          if_pos ⟨by omega, by omega⟩]
      · rw [if_neg (show ¬(decide (s + n ≤ x) && decide (x < s + n + 1)) = true by
            simp; omega)]
        by_cases h1 : s ≤ x ∧ x < s + n
        · rw [if_pos h1, if_pos ⟨h1.1, by omega⟩]
        · rw [if_neg h1, if_neg (fun h => h1 ⟨h.1, by omega⟩)]

theorem runRects_countP (yr : Nat) (simplify : Bool) (r : Nat × Nat) (x y : Nat) :
    (runRects yr simplify r).countP (fun rc => coversB rc x y) =
      if y = yr ∧ coversRunB x r = true then 1 else 0 := by
  rw [runRects]
  split
  · rw [List.countP_cons, List.countP_nil]
    by_cases h : y = yr ∧ coversRunB x r = true
    · rw [if_pos (show coversB ⟨r.1, yr, r.2, 1, "black"⟩ x y = true by
        have h2 := h.2
        simp [coversRunB] at h2
        simp [coversB, h.1]
        omega), if_pos h]
    · rw [if_neg (show ¬coversB ⟨r.1, yr, r.2, 1, "black"⟩ x y = true by
        intro hc
        simp [coversB] at hc
        exact h ⟨by omega, by simp [coversRunB]; omega⟩), if_neg h]
  · rw [List.countP_map]
    by_cases hy : y = yr
    · have he : ((fun rc => coversB rc x y) ∘ fun j =>
          (⟨r.1 + j, yr, 1, 1, "black"⟩ : Rect)) =
          fun j => decide (r.1 + j ≤ x) && decide (x < r.1 + j + 1) := by
        funext j
        simp [Function.comp, coversB, hy] <;> omega
      rw [he, countP_unitRange]
      by_cases h1 : r.1 ≤ x ∧ x < r.1 + r.2
      · rw [if_pos h1, if_pos ⟨hy, by simp [coversRunB] <;> omega⟩]
      · rw [if_neg h1, if_neg (fun h => by
          have h2 := h.2
          simp [coversRunB] at h2
          exact h1 ⟨by omega, by omega⟩)]
    · have he : ((fun rc => coversB rc x y) ∘ fun j =>
          (⟨r.1 + j, yr, 1, 1, "black"⟩ : Rect)) = fun j => false := by
        funext j
        simp [Function.comp, coversB] <;> omega
      rw [he, if_neg (fun h => hy h.1)]
      simp

theorem sum_map_ite_countP {α : Type} (l : List α) (p : α → Bool) :
    (l.map (fun a => if p a = true then 1 else 0)).sum = l.countP p := by
  induction l with
  | nil => simp
  | cons a t ih =>
      rw [List.map_cons, List.sum_cons, ih, List.countP_cons]
      by_cases h : p a = true
      · rw [if_pos h]
        omega
      · rw [if_neg h]
        omega

theorem row_countP (img : Img) (simplify : Bool) (yr x y : Nat) :
    ((rowRuns (rowOf img yr)).flatMap (runRects yr simplify)).countP
        (fun rc => coversB rc x y) =
      if y = yr ∧ darkAtB img yr x = true then 1 else 0 := by
  rw [List.countP_flatMap]
  by_cases hy : y = yr
  · have hmap : ((rowRuns (rowOf img yr)).map
        (List.countP (fun rc => coversB rc x y) ∘ runRects yr simplify)) =
        (rowRuns (rowOf img yr)).map (fun r => if coversRunB x r = true then 1 else 0) := by
      apply List.map_congr_left
      intro r _
      rw [Function.comp_apply, runRects_countP]
      by_cases hc : coversRunB x r = true
      · rw [if_pos ⟨hy, hc⟩, if_pos hc]
      · rw [if_neg (fun h => hc h.2), if_neg hc]
    rw [hmap, sum_map_ite_countP, rowRuns, runsAux_none_eq, runsSpec_countP]
    rw [Nat.sub_zero, rowDark]
    by_cases hd : darkAtB img yr x = true
    · rw [if_pos ⟨by omega, hd⟩, if_pos ⟨hy, hd⟩]
    · rw [if_neg (fun h => hd h.2), if_neg (fun h => hd h.2)]
  · have hmap : ((rowRuns (rowOf img yr)).map
        (List.countP (fun rc => coversB rc x y) ∘ runRects yr simplify)) =
        (rowRuns (rowOf img yr)).map (fun _ => 0) := by
      apply List.map_congr_left
      intro r _
      rw [Function.comp_apply, runRects_countP, if_neg (fun h => hy h.1)]
    rw [hmap, if_neg (fun h => hy h.1)]
    simp

theorem sum_range_pin (n t : Nat) (f : Nat → Nat) :
    ((List.range n).map (fun yy => if t = yy then f yy else 0)).sum =
      if t < n then f t else 0 := by
  induction n with
  | zero => simp
  | succ n ih =>
      rw [List.range_succ, List.map_append, List.sum_append, ih,
        List.map_cons, List.map_nil]
      by_cases h2 : t = n
      · subst h2
        rw [if_neg (show ¬t < t by omega), if_pos rfl,
          if_pos (show t < t + 1 by omega)]
        simp
      · rw [if_neg h2]
        by_cases h1 : t < n
        · rw [if_pos h1, if_pos (show t < n + 1 by omega)]
          simp
        · rw [if_neg h1, if_neg (show ¬t < n + 1 by omega)]
          simp

/-- C1: in binary mode (for both `simplify` settings) every pixel of the
grid that is strictly below intensity 128 is covered by exactly one
emitted rectangle, every other point of the plane by none, and every
emitted rectangle has height 1 (no merging across rows). -/
theorem C1_binary_coverage (img : Img) (simplify : Bool) (x y : Nat) :
    ((generate_binary_paths img simplify).countP (fun r => coversB r x y) =
      if y < img.height ∧ x < img.width ∧ img.pix y x < 128 then 1 else 0) ∧
    ∀ r ∈ generate_binary_paths img simplify, r.height = 1 := by
  constructor
  · rw [generate_binary_paths, List.countP_flatMap]
    have hmap : ((List.range img.height).map
        (List.countP (fun r => coversB r x y) ∘ fun yr =>
          (rowRuns (rowOf img yr)).flatMap (runRects yr simplify))) =
        (List.range img.height).map (fun yr =>
          if y = yr then (if darkAtB img yr x = true then 1 else 0) else 0) := by
      apply List.map_congr_left
      intro yr _
      rw [Function.comp_apply, row_countP]
      by_cases hy : y = yr
      · by_cases hd : darkAtB img yr x = true
        · rw [if_pos ⟨hy, hd⟩, if_pos hy, if_pos hd]
        · rw [if_neg (fun h => hd h.2), if_pos hy, if_neg hd]
      · rw [if_neg (fun h => hy h.1), if_neg hy]
    rw [hmap, sum_range_pin]
    by_cases h1 : y < img.height
    · rw [if_pos h1]
      by_cases hd : darkAtB img y x = true
      · rw [if_pos hd, if_pos ⟨h1, by simpa [darkAtB] using hd⟩]
      · rw [if_neg hd, if_neg (fun h => hd (by simp [darkAtB]; exact ⟨h.2.1, h.2.2⟩))]
    · rw [if_neg h1, if_neg (fun h => h1 h.1)]
  · intro r hr
    rw [generate_binary_paths] at hr
    simp only [List.mem_flatMap] at hr
    obtain ⟨yr, _, run, _, hmem⟩ := hr
    rw [runRects] at hmem
    split at hmem
    · simp at hmem
      rw [hmem]
    · simp at hmem
      obtain ⟨j, _, hj⟩ := hmem
      rw [← hj]

set_option maxRecDepth 20000 in
/-- Witness for `C1_binary_coverage`: pixel (25, 25) of the scenario grid
is covered by exactly one rectangle, and rectangles have height 1. -/
theorem C1_binary_coverage_witness :
    (generate_binary_paths sq100 true).countP (fun r => coversB r 25 25) = 1 ∧
    (⟨20, 25, 60, 1, "black"⟩ : Rect).height = 1 := by
  have h := C1_binary_coverage sq100 true 25 25
  exact ⟨h.1.trans (by decide), h.2 ⟨20, 25, 60, 1, "black"⟩ (by decide)⟩

theorem rowRuns_mem (img : Img) (y s n : Nat) :
    ((s, n) ∈ rowRuns (rowOf img y)) ↔ IsMaxRun img y s n := by
  rw [rowRuns, runsAux_none_eq, runsSpec_mem, IsMaxRun]
  simp only [Nat.sub_zero, Nat.zero_le, true_and, rowDark]

theorem binary_maxrun_mem (img : Img) (simplify : Bool) (y s n : Nat)
    (hy : y < img.height) (hmax : IsMaxRun img y s n) :
    ((simplify = true ∧ 1 < n) →
      (⟨s, y, n, 1, "black"⟩ : Rect) ∈ generate_binary_paths img simplify) ∧
    (¬(simplify = true ∧ 1 < n) → ∀ j < n,
      (⟨s + j, y, 1, 1, "black"⟩ : Rect) ∈ generate_binary_paths img simplify) := by
  have hrun : (s, n) ∈ rowRuns (rowOf img y) := (rowRuns_mem img y s n).mpr hmax
  constructor
  · rintro ⟨hsimp, hn⟩
    rw [generate_binary_paths, List.mem_flatMap]
    refine ⟨y, List.mem_range.mpr hy, ?_⟩
    rw [List.mem_flatMap]
    refine ⟨(s, n), hrun, ?_⟩
    rw [runRects, if_pos ⟨hsimp, hn⟩]
    exact List.mem_singleton.mpr rfl
  · intro hns j hj
    rw [generate_binary_paths, List.mem_flatMap]
    refine ⟨y, List.mem_range.mpr hy, ?_⟩
    rw [List.mem_flatMap]
    refine ⟨(s, n), hrun, ?_⟩
    rw [runRects, if_neg hns, List.mem_map]
    exact ⟨j, List.mem_range.mpr hj, rfl⟩

set_option maxRecDepth 20000 in
/-- C6: per row, a maximal dark run is emitted as one `width = len`,
`height = 1` rectangle when `simplify` holds and the run is longer than 1,
and as one unit rectangle per pixel otherwise; consequently the 100×100
scenario grid with the black 60×60 square at (20,20)–(80,80) yields, with
`simplify`, exactly the 60 rectangles `x=20 width=60 height=1` for
`y = 20..79`. -/
theorem C6_binary_run_encoding :
    (∀ (img : Img) (simplify : Bool) (y s n : Nat), y < img.height → IsMaxRun img y s n →
      ((simplify = true ∧ 1 < n) →
        (⟨s, y, n, 1, "black"⟩ : Rect) ∈ generate_binary_paths img simplify) ∧
      (¬(simplify = true ∧ 1 < n) → ∀ j < n,
        (⟨s + j, y, 1, 1, "black"⟩ : Rect) ∈ generate_binary_paths img simplify)) ∧
    generate_binary_paths sq100 true =
      (List.range 60).map (fun k => ⟨20, 20 + k, 60, 1, "black"⟩) := by
  constructor
  · intro img simplify y s n hy hmax
    exact binary_maxrun_mem img simplify y s n hy hmax
  · decide

/-- Witness for `C6_binary_run_encoding`: the run of row 20 of the
scenario grid, and the run of an isolated pixel, are emitted as stated. -/
theorem C6_binary_run_encoding_witness :
    (⟨20, 20, 60, 1, "black"⟩ : Rect) ∈ generate_binary_paths sq100 true ∧
    (⟨1, 1, 1, 1, "black"⟩ : Rect) ∈ generate_binary_paths imgDot true := by
  constructor
  · exact (C6_binary_run_encoding.1 sq100 true 20 20 60 (by decide) (by decide)).1
      ⟨rfl, by omega⟩
  · have h := (C6_binary_run_encoding.1 imgDot true 1 1 1 (by decide) (by decide)).2
      (by intro hc; omega) 0 (by omega)
    simpa using h

theorem streamRects_false (img : Img) (colorMode : String) :
    streamRects img colorMode false = [] := by
  rw [streamRects]
  simp [generate_paths_for_chunk, chunkRunRects]

theorem streamRects_mem (img : Img) (colorMode : String) (r : Rect)
    (hr : r ∈ streamRects img colorMode true) :
    ∃ y s n, (s, n) ∈ rowRuns (rowOf img y) ∧ 1 < n ∧ r = ⟨s, y, n, 1, "black"⟩ := by
  rw [streamRects] at hr
  simp only [List.mem_flatMap] at hr
  obtain ⟨yStart, _, hr⟩ := hr
  rw [generate_paths_for_chunk] at hr
  simp only [List.mem_flatMap] at hr
  obtain ⟨dy, _, run, hrun, hmem⟩ := hr
  rw [chunkRunRects] at hmem
  split at hmem
  · rename_i hcond
    rw [List.mem_singleton] at hmem
    exact ⟨yStart + dy, run.1, run.2, hrun, hcond.2, hmem⟩
  · exact absurd hmem (List.not_mem_nil r)

/-- C9: the streaming per-band encoder emits a rectangle only when
`simplify` holds and the run is longer than 1 — so with `simplify = false`
the stream is just the opening and closing root fragments, and even with
`simplify` an isolated single-pixel dark run is never covered by any
streamed rectangle, although the whole-document encoder emits a unit
rectangle for it. -/
theorem C9_streaming_drops_rects :
    (∀ (img : Img) (colorMode : String),
      vectorize_streaming img colorMode false =
        [svgHeader img.width img.height ++ "\n", "</svg>"]) ∧
    (∀ (img : Img) (colorMode : String) (r : Rect),
      r ∈ streamRects img colorMode true → 1 < r.width) ∧
    (∀ (img : Img) (colorMode : String) (x y : Nat), IsMaxRun img y x 1 →
      (∀ r ∈ streamRects img colorMode true, coversB r x y = false) ∧
      (y < img.height → (⟨x, y, 1, 1, "black"⟩ : Rect) ∈ generate_binary_paths img true)) := by
  refine ⟨?_, ?_, ?_⟩
  · intro img colorMode
    rw [vectorize_streaming, streamRects_false]
    rfl
  · intro img colorMode r hr
    obtain ⟨y, s, n, _, hn, rfl⟩ := streamRects_mem img colorMode r hr
    exact hn
  · intro img colorMode x y hmax
    constructor
    · intro r hr
      obtain ⟨yr, s, n, hrun, hn, rfl⟩ := streamRects_mem img colorMode r hr
      by_contra hcov
      rw [Bool.not_eq_false] at hcov
      simp only [coversB, Bool.and_eq_true, decide_eq_true_eq] at hcov
      obtain ⟨⟨⟨hsx, hxn⟩, hyy⟩, hyy2⟩ := hcov
      have hy : yr = y := by omega
      subst hy
      obtain ⟨_, hall, _, _⟩ := (rowRuns_mem img yr s n).mp hrun
      obtain ⟨_, _, hleft, hright⟩ := hmax
      rcases Nat.eq_or_lt_of_le hsx with hse | hse
      · have h2 := hall 1 (by omega)
        rw [hse] at h2
        rw [h2] at hright
        exact Bool.noConfusion hright
      · rcases hleft with h0 | hlf
        · omega
        · have h2 := hall (x - 1 - s) (by omega)
          rw [show s + (x - 1 - s) = x - 1 from by omega] at h2
          rw [h2] at hlf
          exact Bool.noConfusion hlf
    · intro hy
      have h := (binary_maxrun_mem img true y x 1 hy hmax).2
        (by intro hc; omega) 0 (by omega)
      simpa using h

set_option maxRecDepth 20000 in
/-- Witness for `C9_streaming_drops_rects`: on the 3×3 single-dot grid the
stream with `simplify = false` is just the two root fragments, and the
isolated dark pixel is covered by the whole-document encoder. -/
theorem C9_streaming_drops_rects_witness :
    vectorize_streaming imgDot "binary" false =
      [svgHeader 3 3 ++ "\n", "</svg>"] ∧
    (⟨1, 1, 1, 1, "black"⟩ : Rect) ∈ generate_binary_paths imgDot true := by
  refine ⟨C9_streaming_drops_rects.1 imgDot "binary", ?_⟩
  exact (C9_streaming_drops_rects.2.2 imgDot "binary" 1 1 (by decide)).2 (by decide)

theorem mem_rangeStep {n s : Nat} (hs : 0 < s) (x : Nat) :
    x ∈ rangeStep n s ↔ x % s = 0 ∧ x < n := by
  rw [rangeStep, List.mem_map]
  constructor
  · rintro ⟨k, hk, rfl⟩
    rw [List.mem_range] at hk
    refine ⟨Nat.mul_mod_left k s, ?_⟩
    have h2 : (k + 1) * s ≤ n + s - 1 := (Nat.le_div_iff_mul_le hs).mp hk
    have h3 : k * s + s ≤ n + s - 1 := by rw [Nat.succ_mul] at h2; omega
    omega
  · rintro ⟨hmod, hlt⟩
    have hdvd : s ∣ x := Nat.dvd_of_mod_eq_zero hmod
    refine ⟨x / s, ?_, Nat.div_mul_cancel hdvd⟩
    rw [List.mem_range]
    have h2 : (x / s + 1) * s ≤ n + s - 1 := by
      rw [Nat.succ_mul, Nat.div_mul_cancel hdvd]
      omega
    exact (Nat.le_div_iff_mul_le hs).mpr h2

theorem rangeStep_nodup (n : Nat) {s : Nat} (hs : 0 < s) :
    (rangeStep n s).Nodup := by
  rw [rangeStep]
  refine List.Nodup.map ?_ (List.nodup_range _)
  intro a b hab
  exact Nat.eq_of_mul_eq_mul_right hs hab

theorem gray_mem (img : Img) (step : Nat) (hs : 0 < step) (r : Rect) :
    (r ∈ (rangeStep img.height step).flatMap (fun y => (rangeStep img.width step).map
        (fun x => (⟨x, y, step, step, rgbFill (img.pix y x)⟩ : Rect)))) ↔
      ∃ y x, y % step = 0 ∧ y < img.height ∧ x % step = 0 ∧ x < img.width ∧
        r = ⟨x, y, step, step, rgbFill (img.pix y x)⟩ := by
  rw [List.mem_flatMap]
  constructor
  · rintro ⟨y, hy, hmem⟩
    rw [List.mem_map] at hmem
    obtain ⟨x, hx, rfl⟩ := hmem
    obtain ⟨hy1, hy2⟩ := (mem_rangeStep hs y).mp hy
    obtain ⟨hx1, hx2⟩ := (mem_rangeStep hs x).mp hx
    exact ⟨y, x, hy1, hy2, hx1, hx2, rfl⟩
  · rintro ⟨y, x, h1, h2, h3, h4, rfl⟩
    exact ⟨y, (mem_rangeStep hs y).mpr ⟨h1, h2⟩,
      List.mem_map.mpr ⟨x, (mem_rangeStep hs x).mpr ⟨h3, h4⟩, rfl⟩⟩

theorem gray_count (img : Img) (step : Nat) (hs : 0 < step) (x y : Nat)
    (hx1 : x % step = 0) (hx2 : x < img.width)
    (hy1 : y % step = 0) (hy2 : y < img.height) :
    ((rangeStep img.height step).flatMap (fun ys => (rangeStep img.width step).map
        (fun xs => (⟨xs, ys, step, step, rgbFill (img.pix ys xs)⟩ : Rect)))).countP
      (fun r => r.x == x && r.y == y) = 1 := by
  rw [List.countP_flatMap]
  have hmap : ((rangeStep img.height step).map
      (List.countP (fun r => r.x == x && r.y == y) ∘ fun ys =>
        (rangeStep img.width step).map
          (fun xs => (⟨xs, ys, step, step, rgbFill (img.pix ys xs)⟩ : Rect)))) =
      (rangeStep img.height step).map (fun ys => if (fun ys => ys == y) ys = true
        then 1 else 0) := by
    apply List.map_congr_left
    intro ys _
    rw [Function.comp_apply, List.countP_map]
    by_cases hy : ys = y
    · subst hy
      simp only [beq_self_eq_true, if_pos rfl]
      have he : ((fun r => r.x == x && r.y == ys) ∘ fun xs =>
          (⟨xs, ys, step, step, rgbFill (img.pix ys xs)⟩ : Rect)) =
          fun xs => xs == x := by
        funext xs
        simp [Function.comp]
      rw [he, ← List.count]
      exact List.count_eq_one_of_mem (rangeStep_nodup _ hs)
        ((mem_rangeStep hs x).mpr ⟨hx1, hx2⟩)
    · rw [if_neg (by simpa using hy)]
      have he : ((fun r => r.x == x && r.y == y) ∘ fun xs =>
          (⟨xs, ys, step, step, rgbFill (img.pix ys xs)⟩ : Rect)) =
          fun _ => false := by
        funext xs
        simp [Function.comp, hy]
      rw [he]
      simp
  rw [hmap, sum_map_ite_countP, ← List.count]
  exact List.count_eq_one_of_mem (rangeStep_nodup _ hs)
    ((mem_rangeStep hs y).mpr ⟨hy1, hy2⟩)

theorem grayscale_mem_iff (img : Img) (simplify : Bool) (r : Rect) :
    r ∈ generate_grayscale_paths img simplify ↔
      ∃ y x, y % (if simplify then 2 else 1) = 0 ∧ y < img.height ∧
        x % (if simplify then 2 else 1) = 0 ∧ x < img.width ∧
        r = ⟨x, y, if simplify then 2 else 1, if simplify then 2 else 1,
          rgbFill (img.pix y x)⟩ := by
  cases simplify
  · simpa [generate_grayscale_paths] using gray_mem img 1 (by omega) r
  · simpa [generate_grayscale_paths] using gray_mem img 2 (by omega) r

set_option maxRecDepth 200000 in
/-- C5: grayscale mode samples the grid with stride 2 when `simplify` and
stride 1 otherwise, emitting exactly one stride-sized square per sampled
position, filled with that single pixel's exact intensity; the 50×50
scenario grid with `simplify` yields a 25×25 arrangement (625 rectangles)
of 2×2 squares. -/
theorem C5_grayscale_subsampling :
    (∀ (img : Img) (simplify : Bool) (r : Rect),
      r ∈ generate_grayscale_paths img simplify ↔
        ∃ y x, y % (if simplify then 2 else 1) = 0 ∧ y < img.height ∧
          x % (if simplify then 2 else 1) = 0 ∧ x < img.width ∧
          r = ⟨x, y, if simplify then 2 else 1, if simplify then 2 else 1,
            rgbFill (img.pix y x)⟩) ∧
    (∀ (img : Img) (simplify : Bool) (x y : Nat),
      x % (if simplify then 2 else 1) = 0 → x < img.width →
      y % (if simplify then 2 else 1) = 0 → y < img.height →
      (generate_grayscale_paths img simplify).countP
        (fun r => r.x == x && r.y == y) = 1) ∧
    (generate_grayscale_paths gray50 true).length = 625 ∧
    (generate_grayscale_paths gray50 true).all
      (fun r => r.width == 2 && r.height == 2) = true := by
  refine ⟨?_, ?_, ?_, ?_⟩
  · intro img simplify r
    exact grayscale_mem_iff img simplify r
  · intro img simplify x y hx1 hx2 hy1 hy2
    cases simplify
    · simp only [if_neg (by simp : ¬(false = true))] at hx1 hy1
      simpa [generate_grayscale_paths] using
        gray_count img 1 (by omega) x y hx1 hx2 hy1 hy2
    · simp only [if_pos rfl] at hx1 hy1
      simpa [generate_grayscale_paths] using
        gray_count img 2 (by omega) x y hx1 hx2 hy1 hy2
  · decide
  · decide

/-- Witness for `C5_grayscale_subsampling`: position (10, 20) of the
scenario grid is covered by exactly one rectangle. -/
theorem C5_grayscale_subsampling_witness :
    (generate_grayscale_paths gray50 true).countP
      (fun r => r.x == 10 && r.y == 20) = 1 :=
  C5_grayscale_subsampling.2.1 gray50 true 10 20 (by decide) (by decide)
    (by decide) (by decide)

/-- C10: with `simplify` and an odd width (resp. height), grayscale mode
emits a 2-wide rectangle at the last column (resp. row), overrunning the
`width` (resp. `height`) declared on the root element: geometry is not
confined to the declared view box. -/
theorem C10_grayscale_overrun (img : Img) :
    (img.width % 2 = 1 → 0 < img.height →
      ∃ r ∈ generate_grayscale_paths img true,
        r.x = img.width - 1 ∧ r.width = 2 ∧ img.width < r.x + r.width) ∧
    (img.height % 2 = 1 → 0 < img.width →
      ∃ r ∈ generate_grayscale_paths img true,
        r.y = img.height - 1 ∧ r.height = 2 ∧ img.height < r.y + r.height) := by
  constructor
  · intro hw hh
    refine ⟨⟨img.width - 1, 0, 2, 2, rgbFill (img.pix 0 (img.width - 1))⟩, ?_,
      rfl, rfl, by simp; omega⟩
    exact (grayscale_mem_iff img true _).mpr
      ⟨0, img.width - 1, by simp, hh, by simp; omega, by omega, rfl⟩
  · intro hh hw
    refine ⟨⟨0, img.height - 1, 2, 2, rgbFill (img.pix (img.height - 1) 0)⟩, ?_,
      rfl, rfl, by simp; omega⟩
    exact (grayscale_mem_iff img true _).mpr
      ⟨img.height - 1, 0, by simp; omega, by omega, by simp, hw, rfl⟩

/-- Witness for `C10_grayscale_overrun`: the 3×3 grid has a rectangle at
column 2 of width 2, exceeding the declared width 3. -/
theorem C10_grayscale_overrun_witness :
    ∃ r ∈ generate_grayscale_paths imgDot true,
      r.x = 2 ∧ r.width = 2 ∧ 3 < r.x + r.width :=
  (C10_grayscale_overrun imgDot).1 (by decide) (by decide)

/-! ## Job lifecycle and cleanup -/

/-- C2 (amended): every `_process_task` run starts at
`pending(progress 0)`, passes only `processing` records whose progress is
drawn from {10, 30, 60, 90}, shows non-decreasing progress and never
steps backward in status, and terminates either `completed` — carrying a
result and a `from_cache` flag but **no** progress value (the source never
writes `progress = 100`) — or `failed` with an error; a cache-hit
completion runs neither preprocessing nor vectorization. -/
theorem C2_job_lifecycle (env : TaskEnv) :
    ∃ mids term,
      processTrace env = pendingRec :: mids ++ [term] ∧
      (∀ r ∈ mids, r.status = JStatus.processing ∧
        ∃ p, r.progress = some p ∧ (p = 10 ∨ p = 30 ∨ p = 60 ∨ p = 90)) ∧
      List.Sorted (· ≤ ·) ((processTrace env).filterMap (·.progress)) ∧
      List.Chain' (fun a b => statusRank a.status ≤ statusRank b.status)
        (processTrace env) ∧
      ((term.status = JStatus.completed ∧ term.progress = none ∧
          (∃ res, term.result = some res) ∧ ∃ fc, term.fromCache = some fc) ∨
        (term.status = JStatus.failed ∧ ∃ e, term.error = some e)) ∧
      (term.fromCache = some true →
        preprocessRan env = false ∧ vectorizeRan env = false) := by
  obtain ⟨cached, pre, vec⟩ := env
  cases cached with
  | some res =>
      refine ⟨[processingRec 10], completedRec res true, rfl, ?_, ?_, ?_, ?_, ?_⟩
      · intro r hr
        rw [List.mem_singleton] at hr
        subst hr
        exact ⟨rfl, 10, rfl, Or.inl rfl⟩
      · simp [processTrace, pendingRec, processingRec, completedRec,
          List.filterMap, List.Sorted]
      · simp [processTrace, pendingRec, processingRec, completedRec,
          List.chain'_cons, statusRank]
      · exact Or.inl ⟨rfl, rfl, ⟨res, rfl⟩, true, rfl⟩
      · intro _
        exact ⟨rfl, rfl⟩
  | none =>
      cases pre with
      | error e =>
          refine ⟨[processingRec 10, processingRec 30], failedRec e, rfl, ?_, ?_, ?_, ?_, ?_⟩
          · intro r hr
            simp only [List.mem_cons, List.not_mem_nil, or_false] at hr
            rcases hr with rfl | rfl
            · exact ⟨rfl, 10, rfl, Or.inl rfl⟩
            · exact ⟨rfl, 30, rfl, Or.inr (Or.inl rfl)⟩
          · simp [processTrace, pendingRec, processingRec, failedRec,
              List.filterMap, List.Sorted]
          · simp [processTrace, pendingRec, processingRec, failedRec,
              List.chain'_cons, statusRank]
          · exact Or.inr ⟨rfl, e, rfl⟩
          · intro hfc
            exact absurd hfc (by simp [failedRec])
      | ok u =>
          cases vec with
          | error e =>
              refine ⟨[processingRec 10, processingRec 30, processingRec 60],
                failedRec e, rfl, ?_, ?_, ?_, ?_, ?_⟩
              · intro r hr
                simp only [List.mem_cons, List.not_mem_nil, or_false] at hr
                rcases hr with rfl | rfl | rfl
                · exact ⟨rfl, 10, rfl, Or.inl rfl⟩
                · exact ⟨rfl, 30, rfl, Or.inr (Or.inl rfl)⟩
                · exact ⟨rfl, 60, rfl, Or.inr (Or.inr (Or.inl rfl))⟩
              · simp [processTrace, pendingRec, processingRec, failedRec,
                  List.filterMap, List.Sorted]
              · simp [processTrace, pendingRec, processingRec, failedRec,
                  List.chain'_cons, statusRank]
              · exact Or.inr ⟨rfl, e, rfl⟩
              · intro hfc
                exact absurd hfc (by simp [failedRec])
          | ok svg =>
              refine ⟨[processingRec 10, processingRec 30, processingRec 60,
                processingRec 90], completedRec svg false, rfl, ?_, ?_, ?_, ?_, ?_⟩
              · intro r hr
                simp only [List.mem_cons, List.not_mem_nil, or_false] at hr
                rcases hr with rfl | rfl | rfl | rfl
                · exact ⟨rfl, 10, rfl, Or.inl rfl⟩
                · exact ⟨rfl, 30, rfl, Or.inr (Or.inl rfl)⟩
                · exact ⟨rfl, 60, rfl, Or.inr (Or.inr (Or.inl rfl))⟩
                · exact ⟨rfl, 90, rfl, Or.inr (Or.inr (Or.inr rfl))⟩
              · simp [processTrace, pendingRec, processingRec, completedRec,
                  List.filterMap, List.Sorted]
              · simp [processTrace, pendingRec, processingRec, completedRec,
                  List.chain'_cons, statusRank]
              · exact Or.inl ⟨rfl, rfl, ⟨svg, rfl⟩, false, rfl⟩
              · intro hfc
                exact absurd hfc (by simp [completedRec])

/-- Counterexample to C2 as stated: for the cache-hit environment the
trace terminates (its last record is `completed`), yet no observable
record is ever `completed` with `progress = 100`, and none is `failed`:
the claimed terminal shape `completed(progress=100)` never occurs. -/
theorem C2_counterexample :
    (processTrace envHit).getLast? = some (completedRec "<svg/>" true) ∧
    ((processTrace envHit).all (fun r =>
      !(r.status == JStatus.completed && r.progress == some 100) &&
      !(r.status == JStatus.failed))) = true := by
  constructor
  · rfl
  · decide

/-- Witness for `C2_job_lifecycle`: the cache-hit completion indeed ran
neither stage. -/
theorem C2_job_lifecycle_witness :
    preprocessRan envHit = false ∧ vectorizeRan envHit = false := by
  obtain ⟨mids, term, heq, _, _, _, _, himp⟩ := C2_job_lifecycle envHit
  have hlast : (processTrace envHit).getLast? = some term := by
    rw [heq, show pendingRec :: mids ++ [term] = (pendingRec :: mids) ++ [term]
      from rfl]
    exact List.getLast?_concat _
  have hterm : term = completedRec "<svg/>" true := by
    have h2 : (processTrace envHit).getLast? = some (completedRec "<svg/>" true) := rfl
    rw [hlast] at h2
    exact Option.some.inj h2
  exact himp (by rw [hterm]; rfl)

theorem processTrace_completedAt (env : TaskEnv) :
    ∀ r ∈ processTrace env, r.completedAt = none := by
  obtain ⟨cached, pre, vec⟩ := env
  intro r hr
  cases cached with
  | some res =>
      simp only [processTrace, List.mem_cons, List.not_mem_nil, or_false] at hr
      rcases hr with rfl | rfl | rfl <;> rfl
  | none =>
      cases pre with
      | error e =>
          simp only [processTrace, List.mem_cons, List.not_mem_nil, or_false] at hr
          rcases hr with rfl | rfl | rfl | rfl <;> rfl
      | ok u =>
          cases vec with
          | error e =>
              simp only [processTrace, List.mem_cons, List.not_mem_nil, or_false] at hr
              rcases hr with rfl | rfl | rfl | rfl | rfl <;> rfl
          | ok svg =>
              simp only [processTrace, List.mem_cons, List.not_mem_nil, or_false] at hr
              rcases hr with rfl | rfl | rfl | rfl | rfl | rfl <;> rfl

/-- C3 (code bug): no record `_process_task` ever writes carries a
`completed_at` timestamp, so `cleanup_completed_tasks` keeps every such
record, whatever the clock and maximum age — the sweep never removes
anything the pipeline produced. -/
theorem C3_cleanup_never_removes (env : TaskEnv) (tid : String) (r : TaskRecord)
    (hr : r ∈ processTrace env) (now maxAge : Nat) :
    cleanup_completed_tasks [(tid, r)] now maxAge = [(tid, r)] := by
  have hnone : r.completedAt = none := processTrace_completedAt env r hr
  rw [cleanup_completed_tasks]
  simp [hnone]

/-- Witness for `C3_cleanup_never_removes`: a record completed at time 0
survives a sweep at time 10⁶ with `max_age = 0`. -/
theorem C3_cleanup_never_removes_witness :
    cleanup_completed_tasks [("t", completedRec "<svg/>" true)] 1000000 0 =
      [("t", completedRec "<svg/>" true)] :=
  C3_cleanup_never_removes envHit "t" (completedRec "<svg/>" true)
    (by rw [show processTrace envHit =
      [pendingRec, processingRec 10, completedRec "<svg/>" true] from rfl]
        exact List.mem_cons.mpr (Or.inr (List.mem_cons.mpr (Or.inr
          (List.mem_singleton.mpr rfl))))) 1000000 0

/-! ## Cache layer availability -/

/-- C7: `get`, `set` and `exists` contain every backing-store error — a
failing backend yields a miss, a no-op and `false` respectively, a
disabled or unconnected cache yields the same, and their non-`Except`
return types show no error propagates; on a healthy enabled cache they
perform exactly the underlying lookup/insert. -/
theorem C7_cache_error_containment (m : CacheMgr) (b : Backend) (k : String)
    (v : List Nat) (ttlArg : Option Nat) :
    (b.failing = true →
      m.get b k = none ∧ m.set b k v ttlArg = b ∧ m.exists b k = false) ∧
    ((m.enabled = false ∨ m.connected = false) →
      m.get b k = none ∧ m.set b k v ttlArg = b ∧ m.exists b k = false) ∧
    (b.failing = false → m.enabled = true → m.connected = true →
      m.get b k = (lookupKey k b.store).map (·.2) ∧
      m.set b k v ttlArg = { b with store := (k, ttlArg.getD m.ttl, v) :: b.store } ∧
      m.exists b k = (lookupKey k b.store).isSome) := by
  refine ⟨fun hf => ?_, fun hd => ?_, fun hf he hc => ?_⟩
  · by_cases he : m.enabled <;> by_cases hc : m.connected <;>
      simp [CacheMgr.get, CacheMgr.set, CacheMgr.exists,
        redisGet, redisSetex, redisExists, hf, he, hc]
  · rcases hd with hd | hd <;>
      simp [CacheMgr.get, CacheMgr.set, CacheMgr.exists, hd]
  · simp [CacheMgr.get, CacheMgr.set, CacheMgr.exists,
      redisGet, redisSetex, redisExists, hf, he, hc]

/-- Witness for `C7_cache_error_containment`: a failing backend gives a
miss and `false`, a disabled cache makes `set` a no-op. -/
theorem C7_cache_error_containment_witness :
    CacheMgr.get ⟨true, true, 7⟩ ⟨[("k", (5, [1]))], true⟩ "k" = none ∧
    CacheMgr.set ⟨false, false, 7⟩ ⟨[], false⟩ "k" [1] none = ⟨[], false⟩ ∧
    CacheMgr.exists ⟨true, true, 7⟩ ⟨[("k", (5, [1]))], true⟩ "k" = false :=
  ⟨((C7_cache_error_containment ⟨true, true, 7⟩ ⟨[("k", (5, [1]))], true⟩
      "k" [1] none).1 rfl).1,
    ((C7_cache_error_containment ⟨false, false, 7⟩ ⟨[], false⟩
      "k" [1] none).2.1 (Or.inl rfl)).2.1,
    ((C7_cache_error_containment ⟨true, true, 7⟩ ⟨[("k", (5, [1]))], true⟩
      "k" [1] none).1 rfl).2.2⟩

/-! ## Cache key canonicalization -/

theorem lookup_mem {α : Type} (ps : List (String × α))
    (hnd : (ps.map Prod.fst).Nodup) (k : String) (v : α) :
    (k, v) ∈ ps ↔ lookupKey k ps = some v := by
  induction ps with
  | nil => simp [lookupKey]
  | cons p rest ih =>
      obtain ⟨a, b⟩ := p
      rw [List.map_cons, List.nodup_cons] at hnd
      obtain ⟨hnk, hnd'⟩ := hnd
      rw [List.mem_cons, lookupKey]
      by_cases hk : a = k
      · subst hk
        rw [if_pos rfl]
        constructor
        · rintro (heq | hmem)
          · rw [Prod.mk.injEq] at heq
            rw [heq.2]
          · exact absurd (List.mem_map_of_mem Prod.fst hmem) hnk
        · intro hv
          rw [Option.some.injEq] at hv
          have hv2 : b = v := hv
          subst hv2
          exact Or.inl rfl
      · rw [if_neg hk, ← ih hnd']
        constructor
        · rintro (heq | hmem)
          · rw [Prod.mk.injEq] at heq
            exact absurd heq.1.symm hk
          · exact hmem
        · exact fun h => Or.inr h

theorem perm_of_lookup_eq (ps1 ps2 : List (String × JValue))
    (h1 : (ps1.map Prod.fst).Nodup) (h2 : (ps2.map Prod.fst).Nodup)
    (hl : ∀ k, lookupKey k ps1 = lookupKey k ps2) : List.Perm ps1 ps2 := by
  apply List.perm_of_nodup_nodup_toFinset_eq (h1.of_map) (h2.of_map)
  apply Finset.ext
  rintro ⟨k, v⟩
  rw [List.mem_toFinset, List.mem_toFinset, lookup_mem ps1 h1, lookup_mem ps2 h2, hl]

theorem sorted_key_eq : ∀ l1 l2 : List (String × JValue), List.Perm l1 l2 →
    l1.Pairwise (fun a b => a.1 ≤ b.1) → l2.Pairwise (fun a b => a.1 ≤ b.1) →
    (l1.map Prod.fst).Nodup → l1 = l2 := by
  intro l1
  induction l1 with
  | nil =>
      intro l2 hperm _ _ _
      exact (List.nil_perm.mp hperm).symm
  | cons a t1 ih =>
      intro l2 hperm hs1 hs2 hnd
      cases l2 with
      | nil => exact absurd hperm.symm (by simp)
      | cons b t2 =>
          have hab : a = b := by
            have hamem : a ∈ b :: t2 := hperm.mem_iff.mp (List.mem_cons_self a t1)
            have hbmem : b ∈ a :: t1 := hperm.symm.mem_iff.mp (List.mem_cons_self b t2)
            rcases List.mem_cons.mp hamem with h | hat2
            · exact h
            rcases List.mem_cons.mp hbmem with h | hbt1
            · exact h.symm
            have h1 : b.1 ≤ a.1 := (List.pairwise_cons.mp hs2).1 a hat2
            have h2 : a.1 ≤ b.1 := (List.pairwise_cons.mp hs1).1 b hbt1
            have hkey : a.1 = b.1 := le_antisymm h2 h1
            rw [List.map_cons, List.nodup_cons] at hnd
            exact absurd (hkey ▸ List.mem_map_of_mem Prod.fst hbt1) hnd.1
          subst hab
          have htail : List.Perm t1 t2 := hperm.cons_inv
          rw [List.map_cons, List.nodup_cons] at hnd
          rw [ih t2 htail (List.pairwise_cons.mp hs1).2 (List.pairwise_cons.mp hs2).2
            hnd.2]

theorem sortParams_sorted (ps : List (String × JValue)) :
    (sortParams ps).Pairwise (fun a b => a.1 ≤ b.1) := by
  have h := @List.sorted_mergeSort (String × JValue)
    (fun a b => decide (a.1 ≤ b.1))
    (fun a b c hab hbc => by
      simp only [decide_eq_true_eq] at hab hbc ⊢
      exact le_trans hab hbc)
    (fun a b => by simpa using le_total a.1 b.1) ps
  exact h.imp (fun hab => by simpa using hab)

/-- C4: the cache key is a pure function of the image bytes and the
parameter dictionary *as a mapping* — any two parameter lists with the
same keys (no duplicates) and the same value for every key produce the
byte-identical, `svg:`-prefixed key, whatever the insertion order; the
statement is quantified over the digest function `hash`, so it holds in
particular for the `xxhash.xxh64` digest of the source (determinism across
calls and process restarts is purity of `generate_cache_key` in
`(hash, bytes, params)`). -/
theorem C4_cache_key_canonical (hash : List Nat → String) (imageData : List Nat)
    (ps1 ps2 : List (String × JValue))
    (h1 : (ps1.map Prod.fst).Nodup) (h2 : (ps2.map Prod.fst).Nodup)
    (hl : ∀ k, lookupKey k ps1 = lookupKey k ps2) :
    generate_cache_key hash imageData ps1 = generate_cache_key hash imageData ps2 ∧
    ∃ t, generate_cache_key hash imageData ps1 = "svg:" ++ t := by
  have hperm : List.Perm ps1 ps2 := perm_of_lookup_eq ps1 ps2 h1 h2 hl
  have hnd1 : ((sortParams ps1).map Prod.fst).Nodup := by
    refine (List.Perm.nodup_iff ?_).mpr h1
    exact (List.mergeSort_perm ps1 _).map Prod.fst
  have hsort : sortParams ps1 = sortParams ps2 := by
    apply sorted_key_eq _ _ ?_ (sortParams_sorted ps1) (sortParams_sorted ps2) hnd1
    exact (List.mergeSort_perm ps1 _).trans (hperm.trans (List.mergeSort_perm ps2 _).symm)
  constructor
  · rw [generate_cache_key, generate_cache_key, jsonDumpsSorted, jsonDumpsSorted, hsort]
  · exact ⟨_, rfl⟩

/-- Witness for `C4_cache_key_canonical`: two insertion orders of the same
two-entry dictionary give the same key under a concrete digest. -/
theorem C4_cache_key_canonical_witness :
    generate_cache_key (fun bs => natStr bs.sum) [7, 3]
        [("b", JValue.jBool true), ("a", JValue.jNum 5)] =
      generate_cache_key (fun bs => natStr bs.sum) [7, 3]
        [("a", JValue.jNum 5), ("b", JValue.jBool true)] ∧
    ∃ t, generate_cache_key (fun bs => natStr bs.sum) [7, 3]
        [("b", JValue.jBool true), ("a", JValue.jNum 5)] = "svg:" ++ t :=
  C4_cache_key_canonical (fun bs => natStr bs.sum) [7, 3]
    [("b", JValue.jBool true), ("a", JValue.jNum 5)]
    [("a", JValue.jNum 5), ("b", JValue.jBool true)]
    (by decide) (by decide)
    (fun k => by
      by_cases hb : "b" = k
      · by_cases ha : "a" = k
        · exact absurd (ha.trans hb.symm) (by decide)
        · simp [lookupKey, ha, hb]
      · by_cases ha : "a" = k
        · simp [lookupKey, ha, hb]
        · simp [lookupKey, ha, hb])

/-! ## SVG document structure -/

theorem join_nil : String.join [] = "" := rfl

theorem join_foldl (xs : List String) : ∀ acc : String,
    xs.foldl (· ++ ·) acc = acc ++ String.join xs := by
  induction xs with
  | nil =>
      intro acc
      rw [List.foldl_nil, join_nil, String.append_empty]
  | cons a t ih =>
      intro acc
      have hj : String.join (a :: t) = a ++ String.join t := by
        rw [String.join, List.foldl_cons, String.empty_append]
        exact ih a
      rw [List.foldl_cons, ih (acc ++ a), hj, String.append_assoc]

theorem join_cons (a : String) (t : List String) :
    String.join (a :: t) = a ++ String.join t := by
  rw [String.join, List.foldl_cons, String.empty_append]
  exact join_foldl t a

theorem join_append (l1 l2 : List String) :
    String.join (l1 ++ l2) = String.join l1 ++ String.join l2 := by
  induction l1 with
  | nil => rw [List.nil_append, join_nil, String.empty_append]
  | cons a t ih =>
      rw [List.cons_append, join_cons, ih, join_cons, String.append_assoc]

theorem go_join (s : String) (xs : List String) : ∀ acc : String,
    String.intercalate.go acc s xs = acc ++ String.join (xs.map (fun x => s ++ x)) := by
  induction xs with
  | nil =>
      intro acc
      rw [String.intercalate.go, List.map_nil, join_nil, String.append_empty]
  | cons a t ih =>
      intro acc
      rw [String.intercalate.go, ih, List.map_cons, join_cons]
      simp [String.append_assoc]

theorem nl_shift (sep : String) (xs : List String) :
    sep ++ String.join (xs.map (fun x => x ++ sep)) =
      String.join (xs.map (fun x => sep ++ x)) ++ sep := by
  induction xs with
  | nil => rw [List.map_nil, List.map_nil, join_nil, String.append_empty, String.empty_append]
  | cons a t ih =>
      rw [List.map_cons, List.map_cons, join_cons, join_cons]
      simp only [String.append_assoc]
      rw [ih]

theorem intercalate_struct (hdr last : String) (xs : List String) :
    String.intercalate "\n" (hdr :: (xs ++ [last])) =
      hdr ++ "\n" ++ String.join (xs.map (fun x => x ++ "\n")) ++ last := by
  rw [show String.intercalate "\n" (hdr :: (xs ++ [last])) =
      String.intercalate.go hdr "\n" (xs ++ [last]) from rfl]
  rw [go_join, List.map_append, join_append, List.map_cons,
    List.map_nil, join_cons, join_nil, String.append_empty]
  simp only [String.append_assoc]
  rw [show ("\n" : String) ++ (last : String) = "\n" ++ last from rfl]
  rw [← String.append_assoc (String.join (xs.map (fun x => "\n" ++ x))) "\n" last]
  rw [← nl_shift]
  simp [String.append_assoc]

theorem startsWithChars_append (p t : List Char) :
    startsWithChars p (p ++ t) = true := by
  induction p with
  | nil => rfl
  | cons c cs ih =>
      rw [List.cons_append, startsWithChars]
      simp [ih]

theorem replaceFirst_head (pat rest new : String) (hp : pat.data ≠ []) :
    replaceFirst (pat ++ rest) pat new = new ++ rest := by
  rw [replaceFirst]
  rw [show (pat ++ rest).data = pat.data ++ rest.data from rfl]
  cases hpd : pat.data with
  | nil => exact absurd hpd hp
  | cons c cs =>
      rw [List.cons_append, replFirst,
        if_pos (show startsWithChars (c :: cs) (c :: (cs ++ rest.data)) = true from
          startsWithChars_append (c :: cs) rest.data)]
      rw [show (c :: (cs ++ rest.data)).drop (c :: cs).length =
        (cs ++ rest.data).drop cs.length from rfl]
      rw [List.drop_left]
      rfl

theorem natCharsAux_digit (fuel : Nat) : ∀ n c, c ∈ natCharsAux fuel n →
    48 ≤ c.toNat ∧ c.toNat ≤ 57 := by
  induction fuel with
  | zero =>
      intro n c hc
      simp [natCharsAux] at hc
  | succ fuel ih =>
      intro n c hc
      rw [natCharsAux] at hc
      split at hc
      · rename_i h10
        rw [List.mem_singleton] at hc
        subst hc
        rw [digitChar]
        have he : (Char.ofNat (48 + n)).toNat = 48 + n := by
          rw [Char.ofNat, dif_pos]
          · rfl
          · exact Or.inl (by omega)
        rw [he]
        omega
      · rw [List.mem_append] at hc
        rcases hc with hc | hc
        · exact ih _ c hc
        · rw [List.mem_singleton] at hc
          subst hc
          have hm : n % 10 < 10 := Nat.mod_lt _ (by omega)
          rw [digitChar]
          have he : (Char.ofNat (48 + n % 10)).toNat = 48 + n % 10 := by
            rw [Char.ofNat, dif_pos]
            · rfl
            · exact Or.inl (by omega)
          rw [he]
          omega

theorem cleanChar_digit (c : Char) (h1 : 48 ≤ c.toNat) (h2 : c.toNat ≤ 57) :
    cleanChar c = true := by
  rw [cleanChar]
  have e1 : (c == '<') = false := by
    rw [beq_eq_false_iff_ne]
    intro h
    subst h
    exact absurd h2 (by decide)
  have e2 : (c == '"') = false := by
    rw [beq_eq_false_iff_ne]
    intro h
    subst h
    exact absurd h1 (by decide)
  have e3 : (c == '&') = false := by
    rw [beq_eq_false_iff_ne]
    intro h
    subst h
    exact absurd h1 (by decide)
  rw [e1, e2, e3]
  rfl

theorem natStr_clean (n : Nat) : (natStr n).data.all cleanChar = true := by
  rw [natStr]
  show (natChars n).all cleanChar = true
  rw [List.all_eq_true]
  intro c hc
  rw [natChars] at hc
  obtain ⟨h1, h2⟩ := natCharsAux_digit (n + 1) n c hc
  exact cleanChar_digit c h1 h2

theorem clean_append (s t : String) (hs : s.data.all cleanChar = true)
    (ht : t.data.all cleanChar = true) : (s ++ t).data.all cleanChar = true := by
  rw [String.data_append, List.all_append, hs, ht]
  rfl

theorem rgbFill_clean (g : Nat) : (rgbFill g).data.all cleanChar = true := by
  rw [rgbFill]
  exact clean_append _ _ (clean_append _ _ (clean_append _ _ (clean_append _ _
    (clean_append _ _ (clean_append _ _ (by decide) (natStr_clean g)) (by decide))
    (natStr_clean g)) (by decide)) (natStr_clean g)) (by decide)

theorem timeStr_clean (a b : Nat) :
    (timeStr a b ++ "ms").data.all cleanChar = true := by
  rw [timeStr]
  refine clean_append _ _ (clean_append _ _ (clean_append _ _ (clean_append _ _
    (natStr_clean a) (by decide)) ?_) (natStr_clean b)) (by decide)
  split
  · decide
  · decide

theorem viewBox_clean (w h : Nat) :
    ("0 0 " ++ natStr w ++ " " ++ natStr h).data.all cleanChar = true :=
  clean_append _ _ (clean_append _ _ (clean_append _ _ (by decide)
    (natStr_clean w)) (by decide)) (natStr_clean h)

theorem attrOk_of_clean (nm v : String)
    (h1 : (decide (nm.length > 0) && nm.data.all nameChar) = true)
    (h2 : v.data.all cleanChar = true) : attrOk (nm, v) = true := by
  rw [attrOk]
  show (decide (nm.length > 0) && nm.data.all nameChar && v.data.all cleanChar) = true
  rw [h1, h2]
  rfl

theorem stdAttrs_ok (w h : Nat) : (stdAttrs w h).all attrOk = true := by
  have h1 := attrOk_of_clean "width" (natStr w) (by decide) (natStr_clean w)
  have h2 := attrOk_of_clean "height" (natStr h) (by decide) (natStr_clean h)
  have h3 := attrOk_of_clean "viewBox" ("0 0 " ++ natStr w ++ " " ++ natStr h)
    (by decide) (viewBox_clean w h)
  rw [stdAttrs]
  simp only [List.all_cons, List.all_nil, h1, h2, h3, Bool.and_true, Bool.true_and]
  decide

theorem rectLeaf_ok (r : Rect) (hf : r.fill.data.all cleanChar = true) :
    leafOk (rectLeaf r) = true := by
  have hx := attrOk_of_clean "x" (natStr r.x) (by decide) (natStr_clean r.x)
  have hy := attrOk_of_clean "y" (natStr r.y) (by decide) (natStr_clean r.y)
  have hw := attrOk_of_clean "width" (natStr r.width) (by decide) (natStr_clean r.width)
  have hh := attrOk_of_clean "height" (natStr r.height) (by decide)
    (natStr_clean r.height)
  have hfa := attrOk_of_clean "fill" r.fill (by decide) hf
  rw [leafOk]
  simp only [rectLeaf]
  simp only [List.all_cons, List.all_nil, hx, hy, hw, hh, hfa,
    Bool.and_true, Bool.true_and]
  have hnd : (List.map Prod.fst [("x", natStr r.x), ("y", natStr r.y),
      ("width", natStr r.width), ("height", natStr r.height),
      ("fill", r.fill)]).Nodup := by
    rw [show (List.map Prod.fst [("x", natStr r.x), ("y", natStr r.y),
      ("width", natStr r.width), ("height", natStr r.height), ("fill", r.fill)]) =
      ["x", "y", "width", "height", "fill"] from rfl]
    decide
  simp only [decide_eq_true hnd, Bool.and_true]
  rfl

theorem binary_fill (img : Img) (simplify : Bool) :
    ∀ r ∈ generate_binary_paths img simplify, r.fill = "black" := by
  intro r hr
  rw [generate_binary_paths] at hr
  simp only [List.mem_flatMap] at hr
  obtain ⟨y, _, run, _, hmem⟩ := hr
  rw [runRects] at hmem
  split at hmem
  · rw [List.mem_singleton] at hmem
    rw [hmem]
  · rw [List.mem_map] at hmem
    obtain ⟨j, _, hj⟩ := hmem
    rw [← hj]

theorem grayscale_fill (img : Img) (simplify : Bool) :
    ∀ r ∈ generate_grayscale_paths img simplify, ∃ v, r.fill = rgbFill v := by
  intro r hr
  rw [generate_grayscale_paths] at hr
  simp only [List.mem_flatMap, List.mem_map] at hr
  obtain ⟨y, _, x, _, hr⟩ := hr
  exact ⟨img.pix y x, by rw [← hr]⟩

theorem pathsOf_fill_clean (img : Img) (colorMode : String) (simplify : Bool) :
    ∀ r ∈ pathsOf img colorMode simplify, r.fill.data.all cleanChar = true := by
  intro r hr
  rw [pathsOf] at hr
  split at hr
  · rw [binary_fill img simplify r hr]
    decide
  · obtain ⟨v, hv⟩ := grayscale_fill img simplify r hr
    rw [hv]
    exact rgbFill_clean v

theorem streamRects_fill (img : Img) (colorMode : String) (simplify : Bool) :
    ∀ r ∈ streamRects img colorMode simplify, r.fill = "black" := by
  intro r hr
  rw [streamRects] at hr
  simp only [List.mem_flatMap] at hr
  obtain ⟨yStart, _, hr⟩ := hr
  rw [generate_paths_for_chunk] at hr
  simp only [List.mem_flatMap] at hr
  obtain ⟨dy, _, run, _, hmem⟩ := hr
  rw [chunkRunRects] at hmem
  split at hmem
  · rw [List.mem_singleton] at hmem
    rw [hmem]
  · exact absurd hmem (List.not_mem_nil r)

theorem rectStr_render (r : Rect) : rectStr r = leafRender (rectLeaf r) := by
  apply String.ext
  simp [rectStr, leafRender, rectLeaf, attrsStr, String.join, List.foldl_cons,
    List.foldl_nil, natStr, List.append_assoc]

theorem svgHeader_eq (w h : Nat) :
    svgHeader w h = "<svg" ++ (attrsStr (stdAttrs w h) ++ ">") := by
  apply String.ext
  simp [svgHeader, attrsStr, stdAttrs, String.join, List.foldl_cons, List.foldl_nil,
    natStr, List.append_assoc]

theorem create_eq (img : Img) (colorMode : String) (simplify : Bool) :
    create_svg_from_array img colorMode simplify =
      "<svg" ++ (attrsStr (stdAttrs img.width img.height) ++ ">" ++ "\n" ++
        String.join ((pathsOf img colorMode simplify).map (fun r => rectStr r ++ "\n")) ++
        "</svg>") := by
  rw [create_svg_from_array, intercalate_struct, svgHeader_eq, List.map_map]
  rw [show ((fun x => x ++ "\n") ∘ rectStr) = (fun r => rectStr r ++ "\n") from rfl]
  simp [String.append_assoc]

theorem children_join (paths : List Rect) :
    String.join ((paths.map rectLeaf).map (fun c => leafRender c ++ "\n")) =
      String.join (paths.map (fun r => rectStr r ++ "\n")) := by
  rw [List.map_map]
  congr 1
  apply List.map_congr_left
  intro r _
  rw [Function.comp_apply, rectStr_render]

theorem vectorize_render (img : Img) (colorMode : String) (simplify : Bool)
    (tInt tFrac : Nat) :
    vectorize img colorMode simplify tInt tFrac =
      docRender ⟨"svg",
        ("data-processing-time", timeStr tInt tFrac ++ "ms") ::
          stdAttrs img.width img.height,
        (pathsOf img colorMode simplify).map rectLeaf⟩ := by
  rw [vectorize, create_eq, replaceFirst_head _ _ _ (by decide), docRender]
  rw [show (⟨"svg", ("data-processing-time", timeStr tInt tFrac ++ "ms") ::
      stdAttrs img.width img.height,
      (pathsOf img colorMode simplify).map rectLeaf⟩ : XmlDoc).children =
      (pathsOf img colorMode simplify).map rectLeaf from rfl]
  rw [children_join]
  rw [show attrsStr (("data-processing-time", timeStr tInt tFrac ++ "ms") ::
      stdAttrs img.width img.height) =
      (" " ++ "data-processing-time" ++ "=\"" ++ (timeStr tInt tFrac ++ "ms") ++ "\"") ++
        attrsStr (stdAttrs img.width img.height) from by
    rw [attrsStr, attrsStr, List.map_cons, join_cons]]
  apply String.ext
  simp [String.data_append, List.append_assoc]

theorem streaming_render (img : Img) (colorMode : String) (simplify : Bool) :
    String.join (vectorize_streaming img colorMode simplify) =
      docRender ⟨"svg", stdAttrs img.width img.height,
        (streamRects img colorMode simplify).map rectLeaf⟩ := by
  rw [vectorize_streaming, join_append, join_cons, join_cons, join_nil,
    String.append_empty, svgHeader_eq, docRender]
  rw [show (⟨"svg", stdAttrs img.width img.height,
      (streamRects img colorMode simplify).map rectLeaf⟩ : XmlDoc).children =
      (streamRects img colorMode simplify).map rectLeaf from rfl]
  rw [children_join]
  apply String.ext
  simp [String.data_append, List.append_assoc]

theorem docA_ok (img : Img) (colorMode : String) (simplify : Bool)
    (tInt tFrac : Nat) :
    docOk ⟨"svg", ("data-processing-time", timeStr tInt tFrac ++ "ms") ::
      stdAttrs img.width img.height,
      (pathsOf img colorMode simplify).map rectLeaf⟩ = true := by
  have hattrs : (("data-processing-time", timeStr tInt tFrac ++ "ms") ::
      stdAttrs img.width img.height).all attrOk = true := by
    rw [List.all_cons, attrOk_of_clean "data-processing-time" _ (by decide)
      (timeStr_clean tInt tFrac), stdAttrs_ok]
    rfl
  have hnd : ((("data-processing-time", timeStr tInt tFrac ++ "ms") ::
      stdAttrs img.width img.height).map Prod.fst).Nodup := by
    rw [show (("data-processing-time", timeStr tInt tFrac ++ "ms") ::
      stdAttrs img.width img.height).map Prod.fst =
      ["data-processing-time", "xmlns", "width", "height", "viewBox"] from rfl]
    decide
  have hch : ((pathsOf img colorMode simplify).map rectLeaf).all leafOk = true := by
    rw [List.all_eq_true]
    intro c hc
    rw [List.mem_map] at hc
    obtain ⟨r, hr, rfl⟩ := hc
    exact rectLeaf_ok r (pathsOf_fill_clean img colorMode simplify r hr)
  rw [docOk]
  show (decide (("svg" : String).length > 0) && ("svg" : String).data.all nameChar &&
    (("data-processing-time", timeStr tInt tFrac ++ "ms") ::
      stdAttrs img.width img.height).all attrOk &&
    decide ((("data-processing-time", timeStr tInt tFrac ++ "ms") ::
      stdAttrs img.width img.height).map Prod.fst).Nodup &&
    ((pathsOf img colorMode simplify).map rectLeaf).all leafOk) = true
  rw [hattrs, hch, decide_eq_true hnd]
  rfl

theorem docB_ok (img : Img) (colorMode : String) (simplify : Bool) :
    docOk ⟨"svg", stdAttrs img.width img.height,
      (streamRects img colorMode simplify).map rectLeaf⟩ = true := by
  have hnd : ((stdAttrs img.width img.height).map Prod.fst).Nodup := by
    rw [show (stdAttrs img.width img.height).map Prod.fst =
      ["xmlns", "width", "height", "viewBox"] from rfl]
    decide
  have hch : ((streamRects img colorMode simplify).map rectLeaf).all leafOk = true := by
    rw [List.all_eq_true]
    intro c hc
    rw [List.mem_map] at hc
    obtain ⟨r, hr, rfl⟩ := hc
    refine rectLeaf_ok r ?_
    rw [streamRects_fill img colorMode simplify r hr]
    decide
  rw [docOk]
  show (decide (("svg" : String).length > 0) && ("svg" : String).data.all nameChar &&
    (stdAttrs img.width img.height).all attrOk &&
    decide ((stdAttrs img.width img.height).map Prod.fst).Nodup &&
    ((streamRects img colorMode simplify).map rectLeaf).all leafOk) = true
  rw [stdAttrs_ok, hch, decide_eq_true hnd]
  rfl

/-- C8: both the whole document produced by `vectorize` — including its
`data-processing-time` annotation — and the concatenation of the
fragments yielded by `vectorize_streaming` are well-formed XML (they are
renderings of legal element trees), and in both the root `svg` element
carries the SVG namespace declaration, `width` and `height` equal to the
grid's pixel dimensions, and `viewBox = "0 0 width height"`. -/
theorem C8_svg_contract (img : Img) (colorMode : String) (simplify : Bool)
    (tInt tFrac : Nat) :
    wellFormedXml (vectorize img colorMode simplify tInt tFrac) ∧
    wellFormedXml (String.join (vectorize_streaming img colorMode simplify)) ∧
    (∃ children, vectorize img colorMode simplify tInt tFrac =
      docRender ⟨"svg", ("data-processing-time", timeStr tInt tFrac ++ "ms") ::
        stdAttrs img.width img.height, children⟩) ∧
    (∃ children, String.join (vectorize_streaming img colorMode simplify) =
      docRender ⟨"svg", stdAttrs img.width img.height, children⟩) :=
  ⟨⟨_, docA_ok img colorMode simplify tInt tFrac,
      (vectorize_render img colorMode simplify tInt tFrac).symm⟩,
   ⟨_, docB_ok img colorMode simplify,
      (streaming_render img colorMode simplify).symm⟩,
   ⟨_, vectorize_render img colorMode simplify tInt tFrac⟩,
   ⟨_, streaming_render img colorMode simplify⟩⟩

end Raster
